import Mathlib

/-
  Verification development for the node-torrent downloader.

  Shallow embedding of the repository's JavaScript sources:
    - src/lib/event-queue.js      (EventQueue: array wrapper, push/pop/remove/contains)
    - src/lib/piece-collector.js  (PieceCollector: collect, write)
    - src/lib/peer.js             (Peer session: message framing loop, request pump)
    - src/lib/download-manager.js (DownloadManager: queues, handlers, _assignWork)
  pending-queue.js is required by download-manager.js but absent from the
  repository sources; its operations are modelled from the specification
  (each such definition is marked "Modelled from the spec:").

  Buffers are lists of bytes (List Nat); JS numbers used as indices are Int
  where negative values are observable (collector indices) and Nat elsewhere.
-/

namespace NodeTorrent

/-! Section 1 :  EventQueue (src/lib/event-queue.js)

`remove(obj)` runs `let idx = this.queue.indexOf(obj); this.queue.splice(idx, 1);`.
`Array.prototype.indexOf` returns the first index of `obj` or `-1`;
`splice(start, 1)` clamps a negative `start` to `max(length + start, 0)` and a
too-large `start` to `length`, then deletes one element at that position. -/

/-- JS `Array.prototype.indexOf`: first index of `x`, or `-1` when absent. -/
def jsIndexOf {α : Type} [DecidableEq α] : List α → α → Int
  | [], _ => -1
  | a :: as, x =>
    if a = x then 0
    else
      let r := jsIndexOf as x
      if r = -1 then -1 else r + 1

/-- JS `Array.prototype.splice(i, 1)`: delete one element at (clamped) index `i`. -/
def jsSpliceRemoveOne {α : Type} (q : List α) (i : Int) : List α :=
  let start : Nat := if i < 0 then ((q.length : Int) + i).toNat else min i.toNat q.length
  q.take start ++ q.drop (start + 1)

/-- Model of `EventQueue.remove` from src/lib/event-queue.js lines 41-44. -/
def EventQueue.remove {α : Type} [DecidableEq α] (q : List α) (x : α) : List α :=
  jsSpliceRemoveOne q (jsIndexOf q x)

theorem jsIndexOf_of_not_mem {α : Type} [DecidableEq α] {q : List α} {x : α}
    (h : x ∉ q) : jsIndexOf q x = -1 := by
  induction q with
  | nil => rfl
  | cons a as ih =>
    simp only [List.mem_cons, not_or] at h
    have hax : ¬ a = x := fun hh => h.1 hh.symm
    simp [jsIndexOf, hax, ih h.2]

theorem jsIndexOf_mem_bounds {α : Type} [DecidableEq α] {q : List α} {x : α}
    (h : x ∈ q) : 0 ≤ jsIndexOf q x ∧ jsIndexOf q x < (q.length : Int) := by
  induction q with
  | nil => cases h
  | cons a as ih =>
    by_cases hax : a = x
    · simp only [jsIndexOf, if_pos hax, List.length_cons]
      refine ⟨le_refl 0, ?_⟩
      push_cast
      omega
    · have hx : x ∈ as := by
        rcases List.mem_cons.mp h with h' | h'
        · exact absurd h'.symm hax
        · exact h'
      rcases ih hx with ⟨h0, h1⟩
      have hne : jsIndexOf as x ≠ -1 := by omega
      simp only [jsIndexOf, if_neg hax, if_neg hne, List.length_cons]
      push_cast
      omega

theorem eventQueue_remove_length {α : Type} [DecidableEq α] (q : List α) (x : α)
    (hne : q ≠ []) : (EventQueue.remove q x).length + 1 = q.length := by
  have hq : 0 < q.length := List.length_pos.mpr hne
  unfold EventQueue.remove jsSpliceRemoveOne
  by_cases hx : x ∈ q
  · rcases jsIndexOf_mem_bounds hx with ⟨h0, h1⟩
    have hlt : (jsIndexOf q x).toNat < q.length := by omega
    have hnotneg : ¬ jsIndexOf q x < 0 := by omega
    simp only [if_neg hnotneg, min_eq_left (le_of_lt hlt)]
    rw [List.length_append, List.length_take, List.length_drop]
    omega
  · rw [jsIndexOf_of_not_mem hx]
    have : ((q.length : Int) + (-1)).toNat = q.length - 1 := by omega
    simp only [if_pos (by omega : (-1 : Int) < 0), this]
    rw [List.length_append, List.length_take, List.length_drop]
    omega

theorem eventQueue_remove_not_mem {α : Type} [DecidableEq α] (q : List α) (x : α)
    (hx : x ∉ q) (hne : q ≠ []) : EventQueue.remove q x = q.dropLast := by
  have hq : 0 < q.length := List.length_pos.mpr hne
  unfold EventQueue.remove jsSpliceRemoveOne
  rw [jsIndexOf_of_not_mem hx]
  have htn : ((q.length : Int) + (-1)).toNat = q.length - 1 := by omega
  simp only [if_pos (by omega : (-1 : Int) < 0), htn]
  have hdrop : q.drop (q.length - 1 + 1) = [] := by
    apply List.drop_eq_nil_of_le
    omega
  rw [hdrop, List.append_nil, ← List.dropLast_eq_take]

/-- Claim C10: `EventQueue.remove` on an absent element is not a no-op: on a
non-empty queue not containing `x` it deletes the last element
(`indexOf` yields `-1` and `splice(-1, 1)` removes the final entry), and
`remove` leaves the queue unchanged only when the queue is empty. -/
theorem eventQueue_remove_absent_deletes_last {α : Type} [DecidableEq α]
    (q : List α) (x : α) (hx : x ∉ q) :
    (q ≠ [] → EventQueue.remove q x = q.dropLast) ∧
    (EventQueue.remove q x = q ↔ q = []) := by
  refine ⟨fun hne => eventQueue_remove_not_mem q x hx hne, ?_, ?_⟩
  · intro heq
    by_contra hne
    have := eventQueue_remove_length q x hne
    rw [heq] at this
    omega
  · intro hq
    subst hq
    rfl

/-- Claim C10 witness: on `[1, 2, 3]` with absent element `7`, `remove`
deletes the final element `3`. -/
theorem eventQueue_remove_absent_deletes_last_witness :
    (([1, 2, 3] : List Nat) ≠ [] → EventQueue.remove [1, 2, 3] 7 = [1, 2]) ∧
    (EventQueue.remove ([1, 2, 3] : List Nat) 7 = [1, 2, 3] ↔ ([1, 2, 3] : List Nat) = []) :=
  eventQueue_remove_absent_deletes_last [1, 2, 3] 7 (by decide)

/-! Section 2 :  PieceCollector (src/lib/piece-collector.js)

The collection is a JS array indexed by the (unchecked) JS number passed to
`collect`; negative indices create ordinary properties outside the slot range,
so the collection is modelled as a total map on Int.  A stored Buffer is always
truthy, so the `if (!this.collection[index])` guard is `Option.isNone`. -/

structure Collector where
  numPieces : Nat
  pieceSize : Nat
  piecesCollected : Nat
  collection : Int → Option (List Nat)
  curPtr : Nat

/-- Collector as built by the constructor (lines 17-38): empty slots,
`piecesCollected = 0`, `curPtr = 0`. -/
def Collector.mk0 (numPieces pieceSize : Nat) : Collector :=
  ⟨numPieces, pieceSize, 0, fun _ => none, 0⟩

/-- Model of `PieceCollector.contains` (lines 44-46): `collection[index] !== undefined`. -/
def Collector.contains (c : Collector) (index : Int) : Bool :=
  (c.collection index).isSome

/-- Model of `PieceCollector.isComplete` (lines 51-53). -/
def Collector.isComplete (c : Collector) : Bool :=
  c.piecesCollected == c.numPieces

/-- Model of `PieceCollector.collect` (lines 67-84).  Returns the updated collector and
whether "collection complete" was emitted (which in the source then starts
`write`, modelled separately).  The only bounds check in the source is
`index >= this.numPieces`. -/
def Collector.collect (c : Collector) (index : Int) (buff : List Nat) :
    Except String (Collector × Bool) :=
  if (c.numPieces : Int) ≤ index then
    Except.error "index out of bounds"
  else
    match c.collection index with
    | none =>
      let c' : Collector :=
        { c with
          collection := fun j => if j = index then some buff else c.collection j
          piecesCollected := c.piecesCollected + 1 }
      Except.ok (c', c'.piecesCollected == c.numPieces)
    | some _ => Except.ok (c, false)

def exceptIsOk {ε α : Type} : Except ε α → Bool
  | .ok _ => true
  | .error _ => false

def collectResultCount : Except String (Collector × Bool) → Nat
  | .ok (c, _) => c.piecesCollected
  | .error _ => 0

/-- Claim C7: collect is idempotent per index: if the in-range slot `i` is
already filled, a second `collect i buf2` returns the collector unchanged,
with no "collection complete" emission, for any `buf2`. -/
theorem collect_idempotent_on_filled (c : Collector) (i : Int) (buf2 : List Nat)
    (h0 : 0 ≤ i) (h1 : i < (c.numPieces : Int))
    (hfill : (c.collection i).isSome = true) :
    Collector.collect c i buf2 = Except.ok (c, false) := by
  unfold Collector.collect
  rw [if_neg (by omega)]
  rcases Option.isSome_iff_exists.mp hfill with ⟨b, hb⟩
  rw [hb]

/-- Claim C7 witness: a collector with slot 0 filled absorbs a second
`collect 0` with a different buffer. -/
theorem collect_idempotent_on_filled_witness :
    Collector.collect
      { numPieces := 2, pieceSize := 4, piecesCollected := 1
        collection := fun j => if j = 0 then some [7] else none, curPtr := 0 }
      0 [9]
    = Except.ok
      ({ numPieces := 2, pieceSize := 4, piecesCollected := 1
         collection := fun j => if j = 0 then some [7] else none, curPtr := 0 }, false) :=
  collect_idempotent_on_filled _ 0 [9] (by decide) (by decide) (by simp)

/-- Claim C8 counterexample: the claim says every index outside `[0, n_pieces)`
is fatal, but `collect` only checks the upper bound: at index `-1` it does not
throw, and it even mutates the state (`piecesCollected` becomes 1). -/
theorem collect_negative_index_not_fatal :
    (-1 : Int) < 0 ∧
    exceptIsOk (Collector.collect (Collector.mk0 2 4) (-1) [3]) = true ∧
    collectResultCount (Collector.collect (Collector.mk0 2 4) (-1) [3]) = 1 := by
  refine ⟨by decide, rfl, rfl⟩

/-- Claim C8 (amended): `collect i buf` throws (before any mutation) exactly
when `i ≥ n_pieces`; for every `i < n_pieces` — including negative `i`, which
the source does not guard against — it does not throw. -/
theorem collect_fatal_iff_index_ge_numPieces (c : Collector) (i : Int) (buff : List Nat) :
    ((c.numPieces : Int) ≤ i → Collector.collect c i buff = Except.error "index out of bounds")
    ∧ (i < (c.numPieces : Int) → exceptIsOk (Collector.collect c i buff) = true) := by
  constructor
  · intro h
    unfold Collector.collect
    rw [if_pos h]
  · intro h
    unfold Collector.collect
    rw [if_neg (by omega)]
    cases c.collection i <;> rfl

/-- Claim C8 witness: with 2 pieces, `collect 5` throws while `collect 1`
succeeds. -/
theorem collect_fatal_iff_index_ge_numPieces_witness :
    Collector.collect (Collector.mk0 2 4) 5 [1] = Except.error "index out of bounds" ∧
    exceptIsOk (Collector.collect (Collector.mk0 2 4) 1 [1]) = true :=
  ⟨(collect_fatal_iff_index_ge_numPieces (Collector.mk0 2 4) 5 [1]).1 (by decide),
   (collect_fatal_iff_index_ge_numPieces (Collector.mk0 2 4) 1 [1]).2 (by decide)⟩

/-! Section 2.1 :  `PieceCollector.write` (lines 89-109)

`write` runs a do-while loop: write `collection[curPtr]`, increment `curPtr`,
and continue while `curPtr < numPieces` and the stream accepted the write
(`ok`).  If it stopped early it re-runs `write` on the stream's `drain` event;
when `curPtr` reaches `numPieces` it emits "write complete".

The stream's backpressure answers are an oracle `ok : Nat → Bool` indexed by
the running count of `fStream.write` calls.  C6's premise is a collector with
all slots filled, so the slots are a total `col : Nat → List Nat`.  One `write`
invocation is `writeLoop`; the sequence of invocations chained by `drain` is
`writeRun`, which carries fuel because the source loop does not terminate when
`numPieces = 0` (the run is `none` if fuel runs out); the `some` result is the
list of buffers passed to the stream, in order, with "write complete" emitted
exactly at the end of the run. -/

def writeLoop (col : Nat → List Nat) (n : Nat) (ok : Nat → Bool) :
    Nat → Nat → List (List Nat) × Nat × Nat := fun ptr k =>
  let data := col ptr
  let ptr' := ptr + 1
  if h : ptr' < n ∧ ok k = true then
    let r := writeLoop col n ok ptr' (k + 1)
    (data :: r.1, r.2)
  else
    ([data], ptr', k + 1)
termination_by ptr _ => n - ptr
decreasing_by omega

def writeRun (col : Nat → List Nat) (n : Nat) (ok : Nat → Bool) :
    Nat → Nat → Nat → Option (List (List Nat)) := fun fuel ptr k =>
  match fuel with
  | 0 => none
  | fuel + 1 =>
    let r := writeLoop col n ok ptr k
    if r.2.1 = n then some r.1
    else (writeRun col n ok fuel r.2.1 r.2.2).map (r.1 ++ ·)

theorem range'_glue : ∀ s a b : Nat, List.range' s a ++ List.range' (s + a) b = List.range' s (a + b) := by
  intro s a
  induction a generalizing s with
  | zero => intro b; simp
  | succ a ih =>
    intro b
    rw [List.range'_succ]
    have h1 : s + (a + 1) = (s + 1) + a := by omega
    rw [h1, List.cons_append, ih (s + 1) b]
    have h2 : a + 1 + b = (a + b) + 1 := by omega
    rw [h2, List.range'_succ]

theorem writeLoop_spec (col : Nat → List Nat) (n : Nat) (ok : Nat → Bool) :
    ∀ d ptr k, ptr < n → n - ptr ≤ d →
      ∃ m, 1 ≤ m ∧ ptr + m ≤ n ∧
        writeLoop col n ok ptr k = ((List.range' ptr m).map col, ptr + m, k + m) := by
  intro d
  induction d with
  | zero => intro ptr k h1 h2; omega
  | succ d ih =>
    intro ptr k h1 _
    rw [writeLoop]
    by_cases h : ptr + 1 < n ∧ ok k = true
    · rcases ih (ptr + 1) (k + 1) h.1 (by omega) with ⟨m, hm1, hm2, hm3⟩
      refine ⟨m + 1, by omega, by omega, ?_⟩
      rw [dif_pos h, hm3, List.range'_succ]
      simp only [List.map_cons, Prod.mk.injEq]
      refine ⟨trivial, by omega, by omega⟩
    · refine ⟨1, le_refl 1, by omega, ?_⟩
      rw [dif_neg h]
      simp [List.range'_one]

theorem writeRun_spec (col : Nat → List Nat) (n : Nat) (ok : Nat → Bool) :
    ∀ fuel ptr k, ptr < n → n - ptr ≤ fuel →
      writeRun col n ok fuel ptr k = some ((List.range' ptr (n - ptr)).map col) := by
  intro fuel
  induction fuel with
  | zero => intro ptr k h1 h2; omega
  | succ fuel ih =>
    intro ptr k h1 h2
    rcases writeLoop_spec col n ok (n - ptr) ptr k h1 le_rfl with ⟨m, hm1, hm2, hm3⟩
    rw [writeRun]
    simp only [hm3]
    by_cases hend : ptr + m = n
    · rw [if_pos hend]
      have hm : m = n - ptr := by omega
      rw [hm]
    · rw [if_neg hend]
      have hlt : ptr + m < n := lt_of_le_of_ne hm2 hend
      rw [ih (ptr + m) (k + m) hlt (by omega)]
      simp only [Option.map_some']
      congr 1
      rw [← List.map_append]
      congr 1
      have hb : m + (n - (ptr + m)) = n - ptr := by omega
      rw [range'_glue ptr m (n - (ptr + m)), hb]

/-- Claim C6: for a collector whose `n` slots are all filled (`col` is the
slot contents), a full `write` run passes the stored buffers to the output
stream in strictly increasing index order `0, 1, ..., n-1`, each slot exactly
once, for every backpressure oracle `ok` (pausing and resuming on drain does
not change the order), and "write complete" is emitted exactly after the last
slot (the run ends in `some`).  Fuel `n` always suffices since every
invocation writes at least one slot. -/
theorem collector_write_strict_order (n : Nat) (col : Nat → List Nat) (ok : Nat → Bool)
    (h : 1 ≤ n) :
    writeRun col n ok n 0 0 = some ((List.range n).map col) := by
  have := writeRun_spec col n ok n 0 0 (by omega) (by omega)
  rw [this]
  rw [List.range_eq_range']
  simp

/-- Claim C6 witness: two slots, a stream that always reports backpressure;
the run still writes slot 0 then slot 1. -/
theorem collector_write_strict_order_witness :
    writeRun (fun i => [i]) 2 (fun _ => false) 2 0 0
      = some ((List.range 2).map (fun i => [i])) :=
  collector_write_strict_order 2 (fun i => [i]) (fun _ => false) (by decide)

/-! Section 3 :  Peer session (src/lib/peer.js)

Byte buffers are `List Nat`; `readUInt32BE` is big-endian over four bytes.
The per-session state after the handshake and bitfield phases carries the
choke flag, the peer's bitfield, the inbound buffer with its read cursor
`amountRead`, and the optional current assignment. -/

def MAX_BACKLOG : Nat := 5
def MAX_REQUEST_SIZE : Nat := 16384

structure Work where
  index : Nat
  size : Nat
deriving DecidableEq

structure Request where
  index : Nat
  offset : Nat
  amount : Nat
deriving DecidableEq

structure CurrentPiece where
  work : Work
  downloaded : Nat
  requested : Nat
  backlog : Nat
  buff : List Nat
deriving DecidableEq

/-- Model of `Buffer.readUInt32BE` on a byte list. -/
def readU32 (l : List Nat) (i : Nat) : Nat :=
  l.getD i 0 * 16777216 + l.getD (i + 1) 0 * 65536 + l.getD (i + 2) 0 * 256 + l.getD (i + 3) 0

/-- Model of `src.copy(dest, offset)`: overwrite `dest` from `offset` with `src`,
truncated to `dest`'s length. -/
def bufCopy (dest src : List Nat) (offset : Nat) : List Nat :=
  (dest.take offset ++ src ++ dest.drop (offset + src.length)).take dest.length

structure PeerSt where
  isChoked : Bool
  bitfield : Nat → Bool
  receivedData : List Nat
  amountRead : Nat
  currentPiece : Option CurrentPiece
  closedConn : Bool

def PeerSt.unreadSize (s : PeerSt) : Nat :=
  s.receivedData.length - s.amountRead

/-- Model of `Peer.awaitingPiece` (lines 288-294). -/
def PeerSt.awaitingPiece (s : PeerSt) : Bool :=
  match s.currentPiece with
  | none => false
  | some cp => decide (cp.downloaded ≠ cp.work.size)

/-! Section 3.1 :  Request pump: `_shouldRequest` (lines 340-350) and `_sendRequest`
(lines 355-378), driven by `while (this._shouldRequest()) this._sendRequest()`
(lines 192-194). -/

/-- Model of `Peer._shouldRequest` restricted to a present assignment. -/
def shouldRequestCp (choked : Bool) (cp : CurrentPiece) : Bool :=
  !choked && (decide (cp.backlog < MAX_BACKLOG) && decide (cp.requested < cp.work.size))

/-- Model of `Peer._sendRequest`: emit a REQUEST for the next block and bump
`backlog`/`requested`. -/
def sendRequest (cp : CurrentPiece) : Request × CurrentPiece :=
  let amount :=
    if cp.work.size - cp.requested < MAX_REQUEST_SIZE then cp.work.size - cp.requested
    else MAX_REQUEST_SIZE
  (⟨cp.work.index, cp.requested, amount⟩,
   { cp with backlog := cp.backlog + 1, requested := cp.requested + amount })

/-- The request-pump loop. -/
def pump (choked : Bool) (cp : CurrentPiece) : List Request × CurrentPiece :=
  if h : shouldRequestCp choked cp = true then
    let r := sendRequest cp
    let rest := pump choked r.2
    (r.1 :: rest.1, rest.2)
  else ([], cp)
termination_by MAX_BACKLOG - cp.backlog
decreasing_by
  simp only [shouldRequestCp, Bool.and_eq_true, decide_eq_true_eq] at h
  simp only [sendRequest]
  omega

/-- The requests of a pump run form a chain: starting offset `r`, each request
targets piece `idx` at the current offset for `min 16384 (size - offset)`
bytes (so a final remainder of at most 16384 bytes is requested in a single
block). -/
def reqChain (idx size : Nat) : Nat → List Request → Prop
  | _, [] => True
  | r, q :: qs =>
    q.index = idx ∧ q.offset = r ∧ q.amount = min MAX_REQUEST_SIZE (size - r) ∧
      reqChain idx size (r + q.amount) qs

theorem sendRequest_amount (cp : CurrentPiece) :
    (sendRequest cp).1.amount = min MAX_REQUEST_SIZE (cp.work.size - cp.requested) := by
  simp only [sendRequest]
  rcases le_or_lt MAX_REQUEST_SIZE (cp.work.size - cp.requested) with h | h
  · rw [if_neg (by omega), min_eq_left h]
  · rw [if_pos h, min_eq_right (le_of_lt h)]

theorem pump_spec_aux (choked : Bool) :
    ∀ d cp, MAX_BACKLOG - cp.backlog ≤ d → cp.backlog ≤ MAX_BACKLOG →
      cp.requested ≤ cp.work.size →
      reqChain cp.work.index cp.work.size cp.requested (pump choked cp).1
      ∧ (pump choked cp).2.work = cp.work
      ∧ (pump choked cp).2.backlog ≤ MAX_BACKLOG
      ∧ (pump choked cp).2.requested ≤ cp.work.size
      ∧ shouldRequestCp choked (pump choked cp).2 = false := by
  intro d
  induction d with
  | zero =>
    intro cp h1 h2 h3
    have hsr : ¬ shouldRequestCp choked cp = true := by
      intro hc
      simp only [shouldRequestCp, Bool.and_eq_true, decide_eq_true_eq] at hc
      omega
    rw [pump, dif_neg hsr]
    exact ⟨trivial, rfl, h2, h3, Bool.eq_false_iff.mpr hsr⟩
  | succ d ih =>
    intro cp h1 h2 h3
    by_cases hsr : shouldRequestCp choked cp = true
    · have hparts := hsr
      simp only [shouldRequestCp, Bool.and_eq_true, decide_eq_true_eq] at hparts
      have hreq2 : (sendRequest cp).2.requested ≤ cp.work.size := by
        simp only [sendRequest]
        split <;> omega
      have hbl2 : (sendRequest cp).2.backlog ≤ MAX_BACKLOG := by
        simp only [sendRequest]
        omega
      have hfuel : MAX_BACKLOG - (sendRequest cp).2.backlog ≤ d := by
        simp only [sendRequest]
        omega
      have ihr := ih (sendRequest cp).2 hfuel hbl2 (by exact hreq2)
      rw [pump, dif_pos hsr]
      refine ⟨⟨rfl, rfl, sendRequest_amount cp, ?_⟩, ?_, ?_, ?_, ?_⟩
      · exact ihr.1
      · exact ihr.2.1
      · exact ihr.2.2.1
      · exact ihr.2.2.2.1
      · exact ihr.2.2.2.2
    · rw [pump, dif_neg hsr]
      exact ⟨trivial, rfl, h2, h3, Bool.eq_false_iff.mpr hsr⟩

/-- Claim C5: whenever the session is unchoked, has an assignment,
`backlog < 5` and `requested < work.size`, the pump emits a REQUEST for
`(work.index, requested, min(16384, work.size - requested))` and repeats until
a precondition fails (the emitted requests form `reqChain`, whose head is at
the initial offset); afterwards `backlog ≤ 5`, `requested ≤ work.size`, and
`_shouldRequest` is false; when the preconditions initially hold at least one
request is emitted. -/
theorem pump_request_schedule (choked : Bool) (cp : CurrentPiece)
    (hb : cp.backlog ≤ MAX_BACKLOG) (hr : cp.requested ≤ cp.work.size) :
    reqChain cp.work.index cp.work.size cp.requested (pump choked cp).1
    ∧ (pump choked cp).2.work = cp.work
    ∧ (pump choked cp).2.backlog ≤ MAX_BACKLOG
    ∧ (pump choked cp).2.requested ≤ cp.work.size
    ∧ shouldRequestCp choked (pump choked cp).2 = false
    ∧ (shouldRequestCp choked cp = true → (pump choked cp).1 ≠ []) := by
  have haux := pump_spec_aux choked MAX_BACKLOG cp (Nat.sub_le _ _) hb hr
  refine ⟨haux.1, haux.2.1, haux.2.2.1, haux.2.2.2.1, haux.2.2.2.2, ?_⟩
  intro hsr
  rw [pump, dif_pos hsr]
  simp

/-- Claim C5 witness: unchoked fresh assignment of a 40000-byte piece:
the pump's preconditions hold and the schedule properties follow. -/
theorem pump_request_schedule_witness :
    reqChain 3 40000 0 (pump false ⟨⟨3, 40000⟩, 0, 0, 0, []⟩).1
    ∧ (pump false ⟨⟨3, 40000⟩, 0, 0, 0, []⟩).2.work = (⟨3, 40000⟩ : Work)
    ∧ (pump false ⟨⟨3, 40000⟩, 0, 0, 0, []⟩).2.backlog ≤ MAX_BACKLOG
    ∧ (pump false ⟨⟨3, 40000⟩, 0, 0, 0, []⟩).2.requested ≤ 40000
    ∧ shouldRequestCp false (pump false ⟨⟨3, 40000⟩, 0, 0, 0, []⟩).2 = false
    ∧ (shouldRequestCp false ⟨⟨3, 40000⟩, 0, 0, 0, []⟩ = true →
        (pump false ⟨⟨3, 40000⟩, 0, 0, 0, []⟩).1 ≠ []) :=
  pump_request_schedule false ⟨⟨3, 40000⟩, 0, 0, 0, []⟩ (by decide) (by decide)

/-! Section 3.2 :  Inbound message processing: `_readAndProcessMessages` lines 115-195,
`_readPiece` lines 300-335.

The source loop can fail to make progress (e.g. a PIECE frame of length 0 when
no piece is expected advances the cursor by 0), so the loop takes fuel; the
`Bool` in the result records an early `return` (oversized frame or incomplete
frame payload, both of which skip the buffer reset and the request pump). -/

/-- Model of `Peer._readPiece` (lines 300-335). -/
def readPiece (s : PeerSt) (msgLength : Nat) (cp : CurrentPiece) : PeerSt :=
  let readSize := msgLength - 1
  let start := s.amountRead + 5
  let payload := (s.receivedData.drop start).take readSize
  let index := readU32 payload 0
  let offset := readU32 payload 4
  let data := payload.drop 8
  if index ≠ cp.work.index then
    { s with amountRead := s.amountRead + (4 + msgLength) }
  else
    { s with
      amountRead := s.amountRead + (msgLength + 4)
      currentPiece := some { cp with
        buff := bufCopy cp.buff data offset
        backlog := cp.backlog - 1
        downloaded := cp.downloaded + data.length } }

/-- The message loop of `_readAndProcessMessages` (lines 115-182).  Returns the
state, the emitted "download complete" payloads, and whether the loop hit an
early `return`. -/
def procMsgs : Nat → PeerSt → List (Work × List Nat) →
    PeerSt × List (Work × List Nat) × Bool
  | 0, s, acc => (s, acc, true)
  | fuel + 1, s, acc =>
    if 5 ≤ s.unreadSize then
      let msgLength := readU32 s.receivedData s.amountRead
      let typeByte := s.receivedData.getD (s.amountRead + 4) 0
      if 2 * MAX_REQUEST_SIZE < msgLength then
        ({ s with closedConn := true }, acc, true)
      else if s.unreadSize < 4 + msgLength then
        (s, acc, true)
      else if typeByte = 1 then
        procMsgs fuel { s with isChoked := false, amountRead := s.amountRead + 5 } acc
      else if typeByte = 0 then
        procMsgs fuel { s with isChoked := true, amountRead := s.amountRead + 5 } acc
      else if typeByte = 4 then
        let index := readU32 s.receivedData (s.amountRead + 5)
        procMsgs fuel
          { s with bitfield := fun i => if i = index then true else s.bitfield i
                   amountRead := s.amountRead + 9 } acc
      else if typeByte = 7 then
        if s.awaitingPiece = false then
          procMsgs fuel { s with amountRead := s.amountRead + msgLength } acc
        else
          match s.currentPiece with
          | none => (s, acc, true)
          | some cp =>
            let s1 := readPiece s msgLength cp
            match s1.currentPiece with
            | some cp1 =>
              if cp1.downloaded = cp1.work.size then
                procMsgs fuel { s1 with currentPiece := none } (acc ++ [(cp1.work, cp1.buff)])
              else
                procMsgs fuel s1 acc
            | none => (s1, acc, true)
      else
        procMsgs fuel { s with amountRead := s.amountRead + (4 + msgLength) } acc
    else (s, acc, false)

/-- Model of `Peer._readAndProcessMessages` after handshake and bitfield: the loop,
then (unless the loop returned early) the buffer reset when fully consumed,
then the request pump. -/
def readAndProcessMessages (fuel : Nat) (s : PeerSt) :
    PeerSt × List (Work × List Nat) × List Request :=
  let r := procMsgs fuel s []
  if r.2.2 = true then (r.1, r.2.1, [])
  else
    let s1 := r.1
    let s2 := if s1.unreadSize = 0 then { s1 with receivedData := [], amountRead := 0 } else s1
    match s2.currentPiece with
    | none => (s2, r.2.1, [])
    | some cp =>
      let pr := pump s2.isChoked cp
      ({ s2 with currentPiece := some pr.2 }, r.2.1, pr.1)

/-- Session state at "ready" (constructor defaults: choked, no assignment)
with the given inbound bytes pending. -/
def peerSt0 (data : List Nat) : PeerSt :=
  { isChoked := true, bitfield := fun _ => false, receivedData := data,
    amountRead := 0, currentPiece := none, closedConn := false }

def keepaliveStreamA : List Nat := [0, 0, 0, 1, 1] ++ [0, 0, 0, 0] ++ [0, 0, 0, 1, 1]
def keepaliveStreamB : List Nat := [0, 0, 0, 1, 1] ++ [0, 0, 0, 1, 1]

/-- Claim C3: evaluation at the failing input.  Stream A is an UNCHOKE frame,
a keep-alive (4-byte zero length prefix), then a second UNCHOKE frame; stream
B is the same without the keep-alive.  The code never discards the keep-alive:
it reads its 4 zero bytes as a length-0 message whose "type byte" is the first
byte of the next frame's length prefix (0, i.e. CHOKE), so stream A ends
choked with the cursor at byte 10 (one byte inside the second frame's
prefix), while stream B ends unchoked — the session states differ and the
decoder was advanced past a byte of the following frame. -/
theorem keepalive_misparsed_as_choke :
    (readAndProcessMessages 8 (peerSt0 keepaliveStreamA)).1.isChoked = true ∧
    (readAndProcessMessages 8 (peerSt0 keepaliveStreamA)).1.amountRead = 10 ∧
    keepaliveStreamA.length = 14 ∧
    (readAndProcessMessages 8 (peerSt0 keepaliveStreamB)).1.isChoked = false := by
  exact ⟨rfl, rfl, rfl, rfl⟩

def c4Stream : List Nat := [0, 0, 0, 9, 7, 0, 0, 0, 2, 0, 0, 0, 0]

/-- Claim C4: evaluation at the failing input.  A complete PIECE frame
(length prefix 9, type 7, index 2, offset 0) arrives while the session has no
current assignment.  The claim says the cursor advances by `4 + msgLength =
13`; the code advances it by `msgLength = 9` only (line 159), leaving the last
4 bytes of the frame unconsumed, so subsequent parsing is misaligned.  No
bytes are copied and the session does not close, but the frame is not
discarded exactly. -/
theorem unexpected_piece_advances_msgLength_only :
    (readAndProcessMessages 4 (peerSt0 c4Stream)).1.amountRead = 9 ∧
    c4Stream.length = 13 ∧
    (readAndProcessMessages 4 (peerSt0 c4Stream)).1.unreadSize = 4 ∧
    (readAndProcessMessages 4 (peerSt0 c4Stream)).1.currentPiece = none ∧
    (readAndProcessMessages 4 (peerSt0 c4Stream)).1.closedConn = false := by
  exact ⟨rfl, rfl, rfl, rfl, rfl⟩

/-! Section 4 :  Download coordinator (src/lib/download-manager.js)

State and handlers of `DownloadManager` (the version with `unclaimed` /
`pending` / `unemployed` queues, constructor lines 100-178, `addPeers` lines
185-273, `_assignWork` lines 284-345).  The collector field is the set of
filled slots: `result.contains(i)` is membership, `result.collect(i, buf)`
inserts (all coordinator calls are in range, so the bounds throw cannot fire,
and a second collect of a filled slot is a no-op), `piecesCollected` is the
cardinality and `isComplete` compares it with `nPieces`.  Peer sessions are
tracked by the per-peer connection state, session assignment
(`currentPiece.work`, `none` once `_finalizeDownload` clears it) and
bitfield.  SHA-1 is the uninterpreted function `sha1fn` fixed at
construction.  Handlers run atomically; the events are the peer-session
emissions the coordinator subscribes to. -/

abbrev PeerId := Nat

structure Job where
  peer : PeerId
  work : Work
deriving DecidableEq

/-- Modelled from the spec: pending-queue.js is required by
download-manager.js but absent from the repository sources.  Spec §3:
*pending* is an ordered sequence of `{peer, work}` pairs in which a given
peer appears at most once, with an internal start cursor separating
already-started assignments from not-yet-started ones. -/
structure Pending where
  jobs : List Job
  startPtr : Nat

/-- Modelled from the spec: append the pair at the end of the sequence. -/
def Pending.push (pq : Pending) (j : Job) : Pending :=
  { pq with jobs := pq.jobs ++ [j] }

/-- Modelled from the spec: the number of pending entries working on `w`;
spec §9: work equality is defined by `index`. -/
def Pending.numWorkers (pq : Pending) (w : Work) : Nat :=
  pq.jobs.countP (fun j => j.work.index == w.index)

def removeWorkerAux : List Job → PeerId → Option (List Job × Nat)
  | [], _ => none
  | j :: js, p =>
    if j.peer = p then some (js, 0)
    else (removeWorkerAux js p).map (fun r => (j :: r.1, r.2 + 1))

/-- Modelled from the spec: remove peer `p`'s entry (a peer appears at most
once); the start cursor keeps separating started from unstarted entries, so
it decrements when the removed entry was before it. -/
def Pending.removeWorker (pq : Pending) (p : PeerId) : Pending :=
  match removeWorkerAux pq.jobs p with
  | none => pq
  | some r =>
    { jobs := r.1
      startPtr := if r.2 < pq.startPtr then pq.startPtr - 1 else pq.startPtr }

inductive ConnSt
  | fresh
  | connected
  | closed
deriving DecidableEq

structure DM where
  nPieces : Nat
  unclaimed : List Work
  pending : Pending
  unemployed : List PeerId
  collected : Finset Nat
  totalConnected : List PeerId
  assigned : PeerId → Option Work
  bitfield : PeerId → Nat → Bool
  connState : PeerId → ConnSt
  sha1fn : List Nat → Nat
  pieceHashes : Nat → Nat

/-- Piece-work built by the constructor loop (lines 153-165): `begin = i *
pieceSize`, `end = min(begin + pieceSize, length)`, `size = end - begin`. -/
def mkWork (pieceSize totalLen i : Nat) : Work :=
  ⟨i, min (i * pieceSize + pieceSize) totalLen - i * pieceSize⟩

/-- Coordinator state after the constructor (lines 100-178): all piece-work
unclaimed, everything else empty. -/
def DM.init (hashes : List Nat) (pieceSize totalLen : Nat) (sha1fn : List Nat → Nat) : DM :=
  { nPieces := hashes.length
    unclaimed := (List.range hashes.length).map (mkWork pieceSize totalLen)
    pending := ⟨[], 0⟩
    unemployed := []
    collected := ∅
    totalConnected := []
    assigned := fun _ => none
    bitfield := fun _ _ => false
    connState := fun _ => .fresh
    sha1fn := sha1fn
    pieceHashes := fun i => hashes.getD i 0 }

def uIdx (s : DM) : List Nat := s.unclaimed.map Work.index
def pIdx (s : DM) : List Nat := s.pending.jobs.map (fun j => j.work.index)
def pPeers (s : DM) : List PeerId := s.pending.jobs.map Job.peer

/-- One iteration of the `_assignWork` while-loop for popped peer `p` (lines
290-340): the first unclaimed work the peer has; else the first pending job
whose piece is not collected and the peer has (redundant assignment); else
disconnect `p` (second component true). -/
def assignStep (s : DM) (p : PeerId) : DM × Bool :=
  match s.unclaimed.find? (fun w => s.bitfield p w.index) with
  | some w =>
    ({ s with unclaimed := s.unclaimed.erase w, pending := s.pending.push ⟨p, w⟩ }, false)
  | none =>
    match s.pending.jobs.find?
        (fun j => decide (j.work.index ∉ s.collected) && s.bitfield p j.work.index) with
    | some j => ({ s with pending := s.pending.push ⟨p, j.work⟩ }, false)
    | none => (s, true)

/-- The `_assignWork` while-loop (lines 289-341).  `Array.pop` removes the
last element, so the loop visits the queue from its end: the worklist
argument is the reversed queue; no iteration pushes back onto it. -/
def assignLoopAux : List PeerId → DM → DM × List PeerId
  | [], s => (s, [])
  | p :: rest, s =>
    let r := assignStep s p
    let r2 := assignLoopAux rest r.1
    (r2.1, if r.2 then p :: r2.2 else r2.2)

/-- Modelled from the spec: `pending.startAll()` (spec §4.5) calls
`session.assign_work(work)` for every entry past the start cursor and
advances the cursor past them; `assign_work` (peer.js lines 394-408) installs
a fresh assignment for the entry's work in the peer's session. -/
def DM.startAll (s : DM) : DM :=
  let newJobs := s.pending.jobs.drop s.pending.startPtr
  { s with
    pending := { s.pending with startPtr := s.pending.jobs.length }
    assigned := newJobs.foldl (fun f j => Function.update f j.peer (some j.work)) s.assigned }

/-- Model of `DownloadManager._assignWork` (lines 284-345): early return when the
collection is complete; otherwise drain `unemployed`, then `startAll`.  The
second component lists the peers the loop disconnected. -/
def DM.assignWork (s : DM) : DM × List PeerId :=
  if s.collected.card = s.nPieces then (s, [])
  else
    let r := assignLoopAux s.unemployed.reverse { s with unemployed := [] }
    (r.1.startAll, r.2)

structure CompleteFx where
  state : DM
  collectCalled : Bool
  requeued : Bool
  idlePushed : List PeerId
  pendingAfterRemove : List Job
  discAll : List PeerId
  discLoop : List PeerId

/-- All peers whose `disconnect()` is called during the handler: those of the
"collection complete" listener plus those of the triggered `_assignWork`. -/
def CompleteFx.disconnected (e : CompleteFx) : List PeerId :=
  e.discAll ++ e.discLoop

/-- The coordinator's 'download complete' handler (lines 235-267), entered
after `_finalizeDownload` cleared the session assignment.  On hash mismatch,
requeue iff the piece is neither collected nor held by another worker (the
delivering peer's entry is still pending, so the condition is
`numWorkers == 1`); on match, call `collect` (which, when it completes the
collection, synchronously runs the "collection complete" listener of lines
139-145, disconnecting every connected peer).  In both branches the worker's
pending entry is then removed and the peer is pushed onto `unemployed`,
triggering `_assignWork`.  `disconnected` records every peer whose
`disconnect()` is called during the handler (by the collection-complete
listener or by the no-work branch of `_assignWork`);
`pendingAfterRemove` is the pending sequence right after `removeWorker`. -/
def completeHandler (s : DM) (p : PeerId) (w : Work) (buf : List Nat) : CompleteFx :=
  if s.sha1fn buf ≠ s.pieceHashes w.index then
    let requeue : Bool := decide (w.index ∉ s.collected) && decide (s.pending.numWorkers w = 1)
    let s1 := if requeue then { s with unclaimed := s.unclaimed ++ [w] } else s
    let s2 := { s1 with pending := s1.pending.removeWorker p }
    let s3 := { s2 with unemployed := s2.unemployed ++ [p] }
    let r := s3.assignWork
    ⟨r.1, false, requeue, [p], s2.pending.jobs, [], r.2⟩
  else
    let hadIt : Bool := decide (w.index ∈ s.collected)
    let col := insert w.index s.collected
    let completeNow : Bool := !hadIt && decide (col.card = s.nPieces)
    let discAll := if completeNow then s.totalConnected else []
    let s1 := { s with collected := col }
    let s2 := { s1 with pending := s1.pending.removeWorker p }
    let s3 := { s2 with unemployed := s2.unemployed ++ [p] }
    let r := s3.assignWork
    ⟨r.1, true, false, [p], s2.pending.jobs, discAll, r.2⟩

/-- Peer-session events the coordinator reacts to: 'ready' (handshake and
bitfield done, carrying the received bitfield), 'close', a HAVE message
(session-side bitfield update), and 'download complete' with the piece
bytes. -/
inductive Ev
  | peerReady (p : PeerId) (bf : Nat → Bool)
  | peerClose (p : PeerId)
  | peerHave (p : PeerId) (i : Nat)
  | peerDone (p : PeerId) (buf : List Nat)

/-- One coordinator handler, atomically; `none` when the event's guard does
not hold (a session emits 'ready' once, 'close'/'HAVE' only while connected,
'download complete' only for the work its session holds). -/
def step (s : DM) : Ev → Option DM
  | .peerReady p bf =>
    if s.connState p = .fresh then
      some (DM.assignWork { s with
        connState := Function.update s.connState p .connected
        bitfield := Function.update s.bitfield p bf
        totalConnected := s.totalConnected ++ [p]
        unemployed := s.unemployed ++ [p] }).1
    else none
  | .peerClose p =>
    if s.connState p = .connected then
      let s1 := { s with
        connState := Function.update s.connState p .closed
        totalConnected := EventQueue.remove s.totalConnected p }
      match s.assigned p with
      | none => some s1
      | some w =>
        let pq := s1.pending.removeWorker p
        let s2 := { s1 with pending := pq }
        if w.index ∉ s2.collected ∧ pq.numWorkers w = 0 then
          some { s2 with unclaimed := s2.unclaimed ++ [w] }
        else some s2
    else none
  | .peerHave p i =>
    if s.connState p = .connected then
      some { s with
        bitfield := Function.update s.bitfield p (fun j => if j = i then true else s.bitfield p j) }
    else none
  | .peerDone p buf =>
    if s.connState p = .connected then
      match s.assigned p with
      | some w =>
        some (completeHandler { s with assigned := Function.update s.assigned p none } p w buf).state
      | none => none
    else none

def stepTrace : DM → List Ev → Option DM
  | s, [] => some s
  | s, e :: es =>
    match step s e with
    | none => none
    | some s1 => stepTrace s1 es

/-- Coordinator states reachable from some constructed instance through
handler executions. -/
inductive Reachable : DM → Prop
  | init (hashes : List Nat) (pieceSize totalLen : Nat) (sha1fn : List Nat → Nat) :
      Reachable (DM.init hashes pieceSize totalLen sha1fn)
  | next {s s1 : DM} {e : Ev} : Reachable s → step s e = some s1 → Reachable s1

theorem reachable_stepTrace : ∀ (evs : List Ev) {s s1 : DM},
    Reachable s → stepTrace s evs = some s1 → Reachable s1 := by
  intro evs
  induction evs with
  | nil =>
    intro s s1 h he
    simp only [stepTrace, Option.some.injEq] at he
    exact he ▸ h
  | cons e es ih =>
    intro s s1 h he
    simp only [stepTrace] at he
    rcases hs : step s e with _ | s2
    · rw [hs] at he; cases he
    · rw [hs] at he
      exact ih (Reachable.next h hs) he

/-! Section 5 :  Coordinator invariants

`CoreInv` is the queue-shape invariant threaded through `_assignWork`'s loop;
`Inv` is the full handler-boundary invariant, proved for all reachable
states. -/

structure CoreInv (s : DM) : Prop where
  uNodup : (uIdx s).Nodup
  uPend : ∀ w ∈ s.unclaimed, w.index ∉ pIdx s
  uCol : ∀ w ∈ s.unclaimed, w.index ∉ s.collected
  cover : ∀ i, i < s.nPieces → i ∈ uIdx s ∨ i ∈ pIdx s ∨ i ∈ s.collected
  colRange : ∀ i ∈ s.collected, i < s.nPieces
  pendRange : ∀ j ∈ s.pending.jobs, j.work.index < s.nPieces
  unclRange : ∀ w ∈ s.unclaimed, w.index < s.nPieces
  pNodup : (pPeers s).Nodup

structure MidInv (s : DM) (L : List PeerId) : Prop where
  core : CoreInv s
  wNodup : L.Nodup
  wDisj : ∀ p ∈ L, p ∉ pPeers s
  wConn : ∀ p ∈ L, s.connState p = .connected

structure Inv (s : DM) : Prop where
  core : CoreInv s
  pConn : ∀ j ∈ s.pending.jobs, s.connState j.peer = .connected
  pAssigned : ∀ j ∈ s.pending.jobs, s.assigned j.peer = some j.work
  aPend : ∀ p w, s.connState p = .connected → s.assigned p = some w →
    (⟨p, w⟩ : Job) ∈ s.pending.jobs
  freshNone : ∀ p, s.connState p = .fresh → s.assigned p = none
  unNodup : s.unemployed.Nodup
  unDisj : ∀ p ∈ s.unemployed, p ∉ pPeers s
  unNotFresh : ∀ p ∈ s.unemployed, s.connState p ≠ .fresh
  drain : s.collected.card ≠ s.nPieces → s.unemployed = []
  ptrFull : s.pending.startPtr = s.pending.jobs.length

/-- Fields `_assignWork`'s loop never changes. -/
def QFrame (s r : DM) : Prop :=
  r.nPieces = s.nPieces ∧ r.collected = s.collected ∧ r.connState = s.connState ∧
  r.assigned = s.assigned ∧ r.bitfield = s.bitfield ∧ r.totalConnected = s.totalConnected ∧
  r.sha1fn = s.sha1fn ∧ r.pieceHashes = s.pieceHashes ∧ r.unemployed = s.unemployed ∧
  r.pending.startPtr = s.pending.startPtr

theorem QFrame.refl (s : DM) : QFrame s s :=
  ⟨rfl, rfl, rfl, rfl, rfl, rfl, rfl, rfl, rfl, rfl⟩

theorem QFrame.trans {s t r : DM} (h1 : QFrame s t) (h2 : QFrame t r) : QFrame s r := by
  obtain ⟨a1, a2, a3, a4, a5, a6, a7, a8, a9, a10⟩ := h1
  obtain ⟨b1, b2, b3, b4, b5, b6, b7, b8, b9, b10⟩ := h2
  exact ⟨b1.trans a1, b2.trans a2, b3.trans a3, b4.trans a4, b5.trans a5,
    b6.trans a6, b7.trans a7, b8.trans a8, b9.trans a9, b10.trans a10⟩

theorem mem_uIdx_erase_or (s : DM) (hnd : (uIdx s).Nodup) {w : Work} {i : Nat}
    (hi : i ∈ uIdx s) :
    i ∈ (s.unclaimed.erase w).map Work.index ∨ i = w.index := by
  rcases List.mem_map.mp hi with ⟨u, hu, hui⟩
  by_cases huw : u = w
  · right; rw [← hui, huw]
  · left
    refine List.mem_map.mpr ⟨u, ?_, hui⟩
    exact ((List.Nodup.of_map _ hnd).mem_erase_iff).mpr ⟨huw, hu⟩

theorem index_ne_of_mem_erase (s : DM) (hnd : (uIdx s).Nodup) {w u : Work}
    (hw : w ∈ s.unclaimed) (hu : u ∈ s.unclaimed.erase w) : u.index ≠ w.index := by
  intro hiq
  have hul : u ∈ s.unclaimed := List.mem_of_mem_erase hu
  have huw : u = w := List.inj_on_of_nodup_map hnd hul hw hiq
  have hnl : s.unclaimed.Nodup := List.Nodup.of_map _ hnd
  rw [huw] at hu
  exact (hnl.mem_erase_iff.mp hu).1 rfl

theorem assignStep_spec (s : DM) (p : PeerId) (rest : List PeerId)
    (h : MidInv s (p :: rest)) :
    MidInv (assignStep s p).1 rest
    ∧ (∃ tl, (assignStep s p).1.pending.jobs = s.pending.jobs ++ tl ∧ ∀ j ∈ tl, j.peer = p)
    ∧ QFrame s (assignStep s p).1
    ∧ ((assignStep s p).2 = true → (assignStep s p).1 = s) := by
  have hpnr : p ∉ rest := (List.nodup_cons.mp h.wNodup).1
  have hrest_nd : rest.Nodup := (List.nodup_cons.mp h.wNodup).2
  have hpP : p ∉ pPeers s := h.wDisj p (List.mem_cons_self p rest)
  rcases hf1 : s.unclaimed.find? (fun w => s.bitfield p w.index) with _ | w
  · rcases hf2 : s.pending.jobs.find?
        (fun j => decide (j.work.index ∉ s.collected) && s.bitfield p j.work.index) with _ | j
    · -- no work: disconnect p, state unchanged
      have hstep : assignStep s p = (s, true) := by
        simp only [assignStep, hf1, hf2]
      rw [hstep]
      refine ⟨⟨h.core, hrest_nd, fun q hq => h.wDisj q (List.mem_cons_of_mem p hq),
        fun q hq => h.wConn q (List.mem_cons_of_mem p hq)⟩,
        ⟨[], by simp, by simp⟩, QFrame.refl s, fun _ => rfl⟩
    · -- redundant assignment from the pending queue
      have hjmem : j ∈ s.pending.jobs := List.mem_of_find?_eq_some hf2
      have hstep : assignStep s p =
          ({ s with pending := s.pending.push ⟨p, j.work⟩ }, false) := by
        simp only [assignStep, hf1, hf2]
      rw [hstep]
      have hpP' : pPeers { s with pending := s.pending.push ⟨p, j.work⟩ } = pPeers s ++ [p] := by
        simp [pPeers, Pending.push]
      have hpI' : pIdx { s with pending := s.pending.push ⟨p, j.work⟩ } = pIdx s ++ [j.work.index] := by
        simp [pIdx, Pending.push]
      have hjidx : j.work.index ∈ pIdx s := List.mem_map.mpr ⟨j, hjmem, rfl⟩
      refine ⟨⟨?_, hrest_nd, ?_, fun q hq => h.wConn q (List.mem_cons_of_mem p hq)⟩,
        ⟨[⟨p, j.work⟩], rfl, by simp⟩, ⟨rfl, rfl, rfl, rfl, rfl, rfl, rfl, rfl, rfl, rfl⟩,
        by intro hc; cases hc⟩
      · refine ⟨h.core.uNodup, ?_, h.core.uCol, ?_, h.core.colRange, ?_, h.core.unclRange, ?_⟩
        · intro u hu
          rw [hpI']
          simp only [List.mem_append, List.mem_singleton, not_or]
          refine ⟨h.core.uPend u hu, ?_⟩
          intro he
          exact h.core.uPend u hu (he ▸ hjidx)
        · intro i hilt
          rcases h.core.cover i hilt with hc | hc | hc
          · exact Or.inl hc
          · exact Or.inr (Or.inl (by rw [hpI']; exact List.mem_append_left _ hc))
          · exact Or.inr (Or.inr hc)
        · intro j2 hj2
          simp only [Pending.push, List.mem_append, List.mem_singleton] at hj2
          rcases hj2 with hj2 | hj2
          · exact h.core.pendRange j2 hj2
          · rw [hj2]
            exact h.core.pendRange j hjmem
        · rw [hpP']
          rw [List.nodup_append]
          exact ⟨h.core.pNodup, List.nodup_singleton p, by
            intro q hq hq2
            rw [List.mem_singleton] at hq2
            exact hpP (hq2 ▸ hq)⟩
      · intro q hq
        rw [hpP']
        simp only [List.mem_append, List.mem_singleton, not_or]
        exact ⟨h.wDisj q (List.mem_cons_of_mem p hq), fun he => hpnr (he ▸ hq)⟩
  · -- fresh work from the unclaimed queue
    have hwmem : w ∈ s.unclaimed := List.mem_of_find?_eq_some hf1
    have hstep : assignStep s p =
        ({ s with unclaimed := s.unclaimed.erase w, pending := s.pending.push ⟨p, w⟩ }, false) := by
      simp only [assignStep, hf1]
    rw [hstep]
    have hpP' : pPeers { s with unclaimed := s.unclaimed.erase w, pending := s.pending.push ⟨p, w⟩ } = pPeers s ++ [p] := by
      simp [pPeers, Pending.push]
    have hpI' : pIdx { s with unclaimed := s.unclaimed.erase w, pending := s.pending.push ⟨p, w⟩ } = pIdx s ++ [w.index] := by
      simp [pIdx, Pending.push]
    refine ⟨⟨?_, hrest_nd, ?_, fun q hq => h.wConn q (List.mem_cons_of_mem p hq)⟩,
      ⟨[⟨p, w⟩], rfl, by simp⟩, ⟨rfl, rfl, rfl, rfl, rfl, rfl, rfl, rfl, rfl, rfl⟩,
      by intro hc; cases hc⟩
    · refine ⟨?_, ?_, ?_, ?_, h.core.colRange, ?_, ?_, ?_⟩
      · exact ((s.unclaimed.erase_sublist w).map Work.index).nodup h.core.uNodup
      · intro u hu
        rw [hpI']
        simp only [List.mem_append, List.mem_singleton, not_or]
        have hul : u ∈ s.unclaimed := List.mem_of_mem_erase hu
        exact ⟨h.core.uPend u hul, index_ne_of_mem_erase s h.core.uNodup hwmem hu⟩
      · intro u hu
        exact h.core.uCol u (List.mem_of_mem_erase hu)
      · intro i hilt
        rcases h.core.cover i hilt with hc | hc | hc
        · rcases mem_uIdx_erase_or s h.core.uNodup (w := w) hc with hc2 | hc2
          · exact Or.inl hc2
          · refine Or.inr (Or.inl ?_)
            rw [hpI', hc2]
            exact List.mem_append_right _ (List.mem_singleton_self _)
        · exact Or.inr (Or.inl (by rw [hpI']; exact List.mem_append_left _ hc))
        · exact Or.inr (Or.inr hc)
      · intro j2 hj2
        simp only [Pending.push, List.mem_append, List.mem_singleton] at hj2
        rcases hj2 with hj2 | hj2
        · exact h.core.pendRange j2 hj2
        · rw [hj2]
          exact h.core.unclRange w hwmem
      · intro u hu
        exact h.core.unclRange u (List.mem_of_mem_erase hu)
      · rw [hpP']
        rw [List.nodup_append]
        exact ⟨h.core.pNodup, List.nodup_singleton p, by
          intro q hq hq2
          rw [List.mem_singleton] at hq2
          exact hpP (hq2 ▸ hq)⟩
    · intro q hq
      rw [hpP']
      simp only [List.mem_append, List.mem_singleton, not_or]
      exact ⟨h.wDisj q (List.mem_cons_of_mem p hq), fun he => hpnr (he ▸ hq)⟩

theorem assignLoopAux_spec : ∀ (L : List PeerId) (s : DM), MidInv s L →
    MidInv (assignLoopAux L s).1 []
    ∧ (∃ tl, (assignLoopAux L s).1.pending.jobs = s.pending.jobs ++ tl ∧ ∀ j ∈ tl, j.peer ∈ L)
    ∧ QFrame s (assignLoopAux L s).1
    ∧ (∀ q ∈ (assignLoopAux L s).2, q ∈ L ∧ q ∉ pPeers (assignLoopAux L s).1) := by
  intro L
  induction L with
  | nil =>
    intro s h
    refine ⟨⟨h.core, List.nodup_nil, by simp, by simp⟩, ⟨[], by simp [assignLoopAux], by simp⟩,
      QFrame.refl s, by simp [assignLoopAux]⟩
  | cons p rest ih =>
    intro s h
    obtain ⟨hmid, ⟨tl1, htl1, htl1p⟩, hfr1, hdisc1⟩ := assignStep_spec s p rest h
    obtain ⟨hmid2, ⟨tl2, htl2, htl2p⟩, hfr2, hdisc2⟩ := ih (assignStep s p).1 hmid
    have hres : assignLoopAux (p :: rest) s =
        ((assignLoopAux rest (assignStep s p).1).1,
          if (assignStep s p).2 then p :: (assignLoopAux rest (assignStep s p).1).2
          else (assignLoopAux rest (assignStep s p).1).2) := rfl
    rw [hres]
    refine ⟨hmid2, ⟨tl1 ++ tl2, ?_, ?_⟩, QFrame.trans hfr1 hfr2, ?_⟩
    · rw [htl2, htl1, List.append_assoc]
    · intro j hj
      rcases List.mem_append.mp hj with hj | hj
      · rw [htl1p j hj]
        exact List.mem_cons_self p rest
      · exact List.mem_cons_of_mem p (htl2p j hj)
    · intro q hq
      by_cases hd : (assignStep s p).2 = true
      · rw [if_pos hd] at hq
        rcases List.mem_cons.mp hq with hq | hq
        · subst hq
          refine ⟨List.mem_cons_self q rest, ?_⟩
          have hs_eq : (assignStep s q).1 = s := hdisc1 hd
          show q ∉ pPeers (assignLoopAux rest (assignStep s q).1).1
          intro hmem
          simp only [pPeers] at hmem
          rw [htl2, hs_eq, List.map_append] at hmem
          rcases List.mem_append.mp hmem with hmem | hmem
          · exact h.wDisj q (List.mem_cons_self q rest) hmem
          · rcases List.mem_map.mp hmem with ⟨j, hj, hjq⟩
            exact (List.nodup_cons.mp h.wNodup).1 (hjq ▸ htl2p j hj)
        · rcases hdisc2 q hq with ⟨hq1, hq2⟩
          exact ⟨List.mem_cons_of_mem p hq1, hq2⟩
      · rw [if_neg hd] at hq
        rcases hdisc2 q hq with ⟨hq1, hq2⟩
        exact ⟨List.mem_cons_of_mem p hq1, hq2⟩

theorem find?_peer_of_nodup : ∀ (js : List Job), (js.map Job.peer).Nodup →
    ∀ j ∈ js, js.find? (fun x => x.peer == j.peer) = some j := by
  intro js
  induction js with
  | nil => intro _ j hj; cases hj
  | cons a js ih =>
    intro hnd j hj
    rcases List.mem_cons.mp hj with hj | hj
    · subst hj
      rw [List.find?_cons_of_pos _ (by simp)]
    · have hne : a.peer ≠ j.peer := by
        intro he
        have hmem : j.peer ∈ js.map Job.peer := List.mem_map.mpr ⟨j, hj, rfl⟩
        exact (List.nodup_cons.mp (by simpa using hnd)).1 (he ▸ hmem)
      rw [List.find?_cons_of_neg _ (by simp [hne])]
      exact ih (List.nodup_cons.mp (by simpa using hnd)).2 j hj

theorem foldl_update_eval : ∀ (js : List Job), (js.map Job.peer).Nodup →
    ∀ (f : PeerId → Option Work) (q : PeerId),
      (js.foldl (fun (g : PeerId → Option Work) (j : Job) => Function.update g j.peer (some j.work)) f) q
      = (match js.find? (fun x => x.peer == q) with
         | some j => some j.work
         | none => f q) := by
  intro js
  induction js with
  | nil => intro _ f q; rfl
  | cons a js ih =>
    intro hnd f q
    have hnd' : (js.map Job.peer).Nodup := (List.nodup_cons.mp (by simpa using hnd)).2
    have hanot : a.peer ∉ js.map Job.peer := (List.nodup_cons.mp (by simpa using hnd)).1
    simp only [List.foldl_cons]
    rw [ih hnd' (Function.update f a.peer (some a.work)) q]
    by_cases haq : a.peer = q
    · have hfind : js.find? (fun x => x.peer == q) = none := by
        rw [List.find?_eq_none]
        intro x hx hbx
        have : x.peer = q := by simpa using hbx
        exact hanot (List.mem_map.mpr ⟨x, hx, this.trans haq.symm⟩)
      rw [hfind, List.find?_cons_of_pos _ (by simp [haq]), ← haq, Function.update_same]
    · rw [List.find?_cons_of_neg _ (by simp [haq])]
      cases hf : js.find? (fun x => x.peer == q) with
      | none => simp [Function.update_noteq (Ne.symm haq)]
      | some j => rfl

theorem startAll_unclaimed (s : DM) : s.startAll.unclaimed = s.unclaimed := rfl
theorem startAll_jobs (s : DM) : s.startAll.pending.jobs = s.pending.jobs := rfl
theorem startAll_collected (s : DM) : s.startAll.collected = s.collected := rfl
theorem startAll_nPieces (s : DM) : s.startAll.nPieces = s.nPieces := rfl
theorem startAll_connState (s : DM) : s.startAll.connState = s.connState := rfl
theorem startAll_unemployed (s : DM) : s.startAll.unemployed = s.unemployed := rfl
theorem startAll_ptr (s : DM) : s.startAll.pending.startPtr = s.pending.jobs.length := rfl
theorem startAll_assigned (s : DM) :
    s.startAll.assigned = (s.pending.jobs.drop s.pending.startPtr).foldl
      (fun (g : PeerId → Option Work) (j : Job) => Function.update g j.peer (some j.work))
      s.assigned := rfl

theorem CoreInv.transport {s r : DM} (h : CoreInv s) (h1 : r.unclaimed = s.unclaimed)
    (h2 : r.pending.jobs = s.pending.jobs) (h3 : r.collected = s.collected)
    (h4 : r.nPieces = s.nPieces) : CoreInv r := by
  have hu : uIdx r = uIdx s := by simp [uIdx, h1]
  have hp : pIdx r = pIdx s := by simp [pIdx, h2]
  have hpp : pPeers r = pPeers s := by simp [pPeers, h2]
  refine ⟨?_, ?_, ?_, ?_, ?_, ?_, ?_, ?_⟩
  · rw [hu]; exact h.uNodup
  · intro w hw; rw [hp]; exact h.uPend w (h1 ▸ hw)
  · intro w hw; rw [h3]; exact h.uCol w (h1 ▸ hw)
  · intro i hi
    rw [hu, hp, h3]
    exact h.cover i (h4 ▸ hi)
  · intro i hi; rw [h4]; exact h.colRange i (h3 ▸ hi)
  · intro j hj; rw [h4]; exact h.pendRange j (h2 ▸ hj)
  · intro w hw; rw [h4]; exact h.unclRange w (h1 ▸ hw)
  · rw [hpp]; exact h.pNodup

theorem assignWork_eq_of_done (t : DM) (hdone : t.collected.card = t.nPieces) :
    t.assignWork = (t, []) := by
  unfold DM.assignWork
  rw [if_pos hdone]

theorem assignWork_eq_of_not_done (t : DM) (hdone : ¬ t.collected.card = t.nPieces) :
    t.assignWork =
      ((assignLoopAux t.unemployed.reverse { t with unemployed := [] }).1.startAll,
       (assignLoopAux t.unemployed.reverse { t with unemployed := [] }).2) := by
  unfold DM.assignWork
  rw [if_neg hdone]

theorem assignWork_inv (t : DM)
    (hc : CoreInv t)
    (hpc : ∀ j ∈ t.pending.jobs, t.connState j.peer = .connected)
    (hpa : ∀ j ∈ t.pending.jobs, t.assigned j.peer = some j.work)
    (hap : ∀ p w, t.connState p = .connected → t.assigned p = some w →
      (⟨p, w⟩ : Job) ∈ t.pending.jobs)
    (hfn : ∀ p, t.connState p = .fresh → t.assigned p = none)
    (hun : t.unemployed.Nodup)
    (hud : ∀ p ∈ t.unemployed, p ∉ pPeers t)
    (huf : ∀ p ∈ t.unemployed, t.connState p ≠ .fresh)
    (huc : t.collected.card ≠ t.nPieces → ∀ p ∈ t.unemployed, t.connState p = .connected)
    (hptr : t.pending.startPtr = t.pending.jobs.length) :
    Inv (t.assignWork).1
    ∧ (t.assignWork).1.collected = t.collected
    ∧ (t.assignWork).1.nPieces = t.nPieces
    ∧ (∀ q ∈ (t.assignWork).2, q ∉ pPeers (t.assignWork).1) := by
  by_cases hdone : t.collected.card = t.nPieces
  · rw [assignWork_eq_of_done t hdone]
    exact ⟨⟨hc, hpc, hpa, hap, hfn, hun, hud, huf, fun hx => absurd hdone hx, hptr⟩,
      rfl, rfl, by simp⟩
  · rw [assignWork_eq_of_not_done t hdone]
    have hmid : MidInv { t with unemployed := ([] : List PeerId) } t.unemployed.reverse := by
      refine ⟨⟨hc.uNodup, hc.uPend, hc.uCol, hc.cover, hc.colRange, hc.pendRange,
        hc.unclRange, hc.pNodup⟩, List.nodup_reverse.mpr hun, ?_, ?_⟩
      · intro p hp
        exact hud p (List.mem_reverse.mp hp)
      · intro p hp
        exact huc hdone p (List.mem_reverse.mp hp)
    obtain ⟨hmid2, ⟨tl, htl0, htlp0⟩, hfr, hdisc⟩ :=
      assignLoopAux_spec t.unemployed.reverse _ hmid
    obtain ⟨hfN, hfC, hfCo, hfA, hfB, hfT, hfS, hfP, hfU, hfPtr⟩ := hfr
    -- notation for the loop result
    have htl : (assignLoopAux t.unemployed.reverse { t with unemployed := [] }).1.pending.jobs
        = t.pending.jobs ++ tl := htl0
    have htlp : ∀ j ∈ tl, j.peer ∈ t.unemployed := by
      intro j hj
      exact List.mem_reverse.mp (htlp0 j hj)
    have hconn : (assignLoopAux t.unemployed.reverse { t with unemployed := [] }).1.connState
        = t.connState := hfCo
    have hasg : (assignLoopAux t.unemployed.reverse { t with unemployed := [] }).1.assigned
        = t.assigned := hfA
    have hcol : (assignLoopAux t.unemployed.reverse { t with unemployed := [] }).1.collected
        = t.collected := hfC
    have hnp : (assignLoopAux t.unemployed.reverse { t with unemployed := [] }).1.nPieces
        = t.nPieces := hfN
    have hue : (assignLoopAux t.unemployed.reverse { t with unemployed := [] }).1.unemployed
        = ([] : List PeerId) := hfU
    have hptr2 : (assignLoopAux t.unemployed.reverse { t with unemployed := [] }).1.pending.startPtr
        = t.pending.jobs.length := by
      rw [hfPtr]
      exact hptr
    have hnew : (assignLoopAux t.unemployed.reverse { t with unemployed := [] }).1.pending.jobs.drop
        (assignLoopAux t.unemployed.reverse { t with unemployed := [] }).1.pending.startPtr = tl := by
      rw [htl, hptr2]
      exact List.drop_left _ _
    have htlnd : (tl.map Job.peer).Nodup := by
      have hall := hmid2.core.pNodup
      rw [pPeers, htl, List.map_append] at hall
      exact hall.of_append_right
    have htdisj : ∀ a ∈ t.pending.jobs.map Job.peer, a ∉ tl.map Job.peer := by
      have hall := hmid2.core.pNodup
      rw [pPeers, htl, List.map_append, List.nodup_append] at hall
      exact hall.2.2
    -- evaluation of the started assignments
    have hasg2 : ∀ q, (assignLoopAux t.unemployed.reverse { t with unemployed := [] }).1.startAll.assigned q
        = (match tl.find? (fun x => x.peer == q) with
           | some j => some j.work
           | none => t.assigned q) := by
      intro q
      rw [startAll_assigned, hnew, foldl_update_eval tl htlnd, hasg]
    have hjobs2 : (assignLoopAux t.unemployed.reverse { t with unemployed := [] }).1.startAll.pending.jobs
        = t.pending.jobs ++ tl := by
      rw [startAll_jobs, htl]
    refine ⟨⟨?_, ?_, ?_, ?_, ?_, ?_, ?_, ?_, ?_, ?_⟩, ?_, ?_, ?_⟩
    · exact CoreInv.transport hmid2.core (startAll_unclaimed _) (startAll_jobs _)
        (startAll_collected _) (startAll_nPieces _)
    · -- pConn
      intro j hj
      rw [hjobs2] at hj
      rw [startAll_connState, hconn]
      rcases List.mem_append.mp hj with hj | hj
      · exact hpc j hj
      · exact huc hdone j.peer (htlp j hj)
    · -- pAssigned
      intro j hj
      rw [hjobs2] at hj
      rw [hasg2]
      rcases List.mem_append.mp hj with hj | hj
      · have hfind : tl.find? (fun x => x.peer == j.peer) = none := by
          rw [List.find?_eq_none]
          intro x hx hbx
          have hxp : x.peer = j.peer := by simpa using hbx
          exact htdisj j.peer (List.mem_map.mpr ⟨j, hj, rfl⟩)
            (List.mem_map.mpr ⟨x, hx, hxp⟩)
        rw [hfind]
        exact hpa j hj
      · rw [find?_peer_of_nodup tl htlnd j hj]
    · -- aPend
      intro p w hcp hasgp
      rw [startAll_connState, hconn] at hcp
      rw [hasg2] at hasgp
      rw [hjobs2]
      rcases hfind : tl.find? (fun x => x.peer == p) with _ | j
      · rw [hfind] at hasgp
        exact List.mem_append_left _ (hap p w hcp hasgp)
      · rw [hfind] at hasgp
        have hjp : j.peer = p := by
          have := List.find?_some hfind
          simpa using this
        have hjw : j.work = w := by
          simpa using hasgp
        have hjm : j ∈ tl := List.mem_of_find?_eq_some hfind
        refine List.mem_append_right _ ?_
        have : (⟨p, w⟩ : Job) = j := by
          cases j
          simp_all
        rw [this]
        exact hjm
    · -- freshNone
      intro p hp
      rw [startAll_connState, hconn] at hp
      rw [hasg2]
      rcases hfind : tl.find? (fun x => x.peer == p) with _ | j
      · rw [hfind]
        exact hfn p hp
      · exfalso
        have hjp : j.peer = p := by
          have := List.find?_some hfind
          simpa using this
        have hjm : j ∈ tl := List.mem_of_find?_eq_some hfind
        have := huf j.peer (htlp j hjm)
        rw [hjp, hp] at this
        exact this rfl
    · rw [startAll_unemployed, hue]
      exact List.nodup_nil
    · rw [startAll_unemployed, hue]
      intro p hp
      cases hp
    · rw [startAll_unemployed, hue]
      intro p hp
      cases hp
    · intro _
      rw [startAll_unemployed, hue]
    · rw [startAll_ptr, startAll_jobs]
    · rw [startAll_collected, hcol]
    · rw [startAll_nPieces, hnp]
    · intro q hq
      have := (hdisc q hq).2
      intro hmem
      apply this
      simpa [pPeers, startAll_jobs] using hmem

/-! Section 6 :  Invariant preservation over the coordinator handlers -/

theorem removeWorkerAux_decomp : ∀ (l1 : List Job) (j0 : Job) (l2 : List Job) (p : PeerId),
    j0.peer = p → (∀ j ∈ l1, j.peer ≠ p) →
    removeWorkerAux (l1 ++ j0 :: l2) p = some (l1 ++ l2, l1.length) := by
  intro l1
  induction l1 with
  | nil =>
    intro j0 l2 p hj0 _
    simp [removeWorkerAux, hj0]
  | cons a l1 ih =>
    intro j0 l2 p hj0 hl1
    have ha : a.peer ≠ p := hl1 a (List.mem_cons_self a l1)
    have hih := ih j0 l2 p hj0 (fun j hj => hl1 j (List.mem_cons_of_mem a hj))
    simp only [List.cons_append, removeWorkerAux, if_neg ha, hih, Option.map_some']
    simp
    exact hih

theorem jobs_decomp_of_mem {js : List Job} (hnd : (js.map Job.peer).Nodup) {p : PeerId} {w : Work}
    (hm : (⟨p, w⟩ : Job) ∈ js) :
    ∃ l1 l2, js = l1 ++ ⟨p, w⟩ :: l2 ∧ (∀ j ∈ l1, j.peer ≠ p) ∧ (∀ j ∈ l2, j.peer ≠ p) := by
  rcases List.append_of_mem hm with ⟨l1, l2, hsplit⟩
  refine ⟨l1, l2, hsplit, ?_, ?_⟩
  · intro j hj he
    have hnd2 := hnd
    rw [hsplit, List.map_append, List.map_cons, List.nodup_append] at hnd2
    exact hnd2.2.2 (List.mem_map.mpr ⟨j, hj, rfl⟩) (by rw [he]; exact List.mem_cons_self _ _)
  · intro j hj he
    have hnd2 := hnd
    rw [hsplit, List.map_append, List.map_cons, List.nodup_append] at hnd2
    have hcons := hnd2.2.1
    rw [List.nodup_cons] at hcons
    exact hcons.1 (he ▸ List.mem_map.mpr ⟨j, hj, rfl⟩)

theorem sublist_middle (l1 l2 : List Job) (a : Job) :
    List.Sublist (l1 ++ l2) (l1 ++ a :: l2) := by
  rw [List.append_sublist_append_left]
  exact List.sublist_cons_self _ _

/-- Effect of `removeWorker` on a queue whose peers are distinct and which contains
`⟨p, w⟩`, with full start cursor: the entry disappears and the cursor stays
full. -/
theorem removeWorker_spec {pq : Pending} {p : PeerId} {w : Work} {l1 l2 : List Job}
    (hjobs : pq.jobs = l1 ++ ⟨p, w⟩ :: l2)
    (hl1 : ∀ j ∈ l1, j.peer ≠ p)
    (hptr : pq.startPtr = pq.jobs.length) :
    (pq.removeWorker p).jobs = l1 ++ l2 ∧
    (pq.removeWorker p).startPtr = (l1 ++ l2).length := by
  have haux : removeWorkerAux pq.jobs p = some (l1 ++ l2, l1.length) := by
    rw [hjobs]
    exact removeWorkerAux_decomp l1 ⟨p, w⟩ l2 p rfl hl1
  have hlen : pq.jobs.length = l1.length + (l2.length + 1) := by
    rw [hjobs]
    simp
  have hlt : l1.length < pq.startPtr := by
    rw [hptr]
    omega
  unfold Pending.removeWorker
  rw [haux]
  refine ⟨rfl, ?_⟩
  show (if l1.length < pq.startPtr then pq.startPtr - 1 else pq.startPtr) = (l1 ++ l2).length
  rw [if_pos hlt, hptr, hlen, List.length_append]
  omega

theorem inv_init (hashes : List Nat) (ps tl : Nat) (f : List Nat → Nat) :
    Inv (DM.init hashes ps tl f) := by
  have huIdx : uIdx (DM.init hashes ps tl f) = List.range hashes.length := by
    show ((List.range hashes.length).map (mkWork ps tl)).map Work.index = _
    rw [List.map_map]
    have hcomp : Work.index ∘ mkWork ps tl = id := funext fun i => rfl
    rw [hcomp, List.map_id]
  refine ⟨⟨?_, ?_, ?_, ?_, ?_, ?_, ?_, ?_⟩, ?_, ?_, ?_, ?_, ?_, ?_, ?_, ?_, ?_⟩
  · rw [huIdx]; exact List.nodup_range _
  · intro w _ hw
    simp [pIdx, DM.init] at hw
  · intro w _ hw
    simp [DM.init] at hw
  · intro i hi
    left
    rw [huIdx]
    exact List.mem_range.mpr hi
  · intro i hi
    simp [DM.init] at hi
  · intro j hj
    simp [DM.init] at hj
  · intro w hw
    simp only [DM.init, List.mem_map, List.mem_range] at hw
    rcases hw with ⟨i, hi, hwi⟩
    rw [← hwi]
    exact hi
  · simp [pPeers, DM.init]
  · intro j hj
    simp [DM.init] at hj
  · intro j hj
    simp [DM.init] at hj
  · intro p w _ hw
    simp [DM.init] at hw
  · intro p _
    rfl
  · exact List.nodup_nil
  · intro p hp
    simp [DM.init] at hp
  · intro p hp
    simp [DM.init] at hp
  · intro _
    rfl
  · rfl

theorem inv_have {s : DM} (hI : Inv s) (p : PeerId) (i : Nat) :
    Inv { s with bitfield := Function.update s.bitfield p (fun j => if j = i then true else s.bitfield p j) } :=
  ⟨CoreInv.transport hI.core rfl rfl rfl rfl, hI.pConn, hI.pAssigned, hI.aPend,
    hI.freshNone, hI.unNodup, hI.unDisj, hI.unNotFresh, hI.drain, hI.ptrFull⟩

theorem inv_ready {s : DM} (hI : Inv s) (p : PeerId) (bf : Nat → Bool)
    (hg : s.connState p = .fresh) :
    Inv (DM.assignWork { s with
      connState := Function.update s.connState p .connected
      bitfield := Function.update s.bitfield p bf
      totalConnected := s.totalConnected ++ [p]
      unemployed := s.unemployed ++ [p] }).1 := by
  have hpnm : p ∉ pPeers s := by
    intro hp
    rcases List.mem_map.mp hp with ⟨j, hj, hjp⟩
    have := hI.pConn j hj
    rw [hjp, hg] at this
    cases this
  have hpun : p ∉ s.unemployed := by
    intro hp
    exact hI.unNotFresh p hp hg
  refine (assignWork_inv _ ?_ ?_ ?_ ?_ ?_ ?_ ?_ ?_ ?_ ?_).1
  · exact CoreInv.transport hI.core rfl rfl rfl rfl
  · intro j hj
    have hjne : j.peer ≠ p := by
      intro he
      have := hI.pConn j hj
      rw [he, hg] at this
      cases this
    show Function.update s.connState p .connected j.peer = .connected
    rw [Function.update_noteq hjne]
    exact hI.pConn j hj
  · exact hI.pAssigned
  · intro q v hq hv
    by_cases hqp : q = p
    · subst hqp
      have := hI.freshNone q hg
      rw [this] at hv
      cases hv
    · have hq2 : s.connState q = .connected := by
        have : Function.update s.connState p ConnSt.connected q = .connected := hq
        rwa [Function.update_noteq hqp] at this
      exact hI.aPend q v hq2 hv
  · intro q hq
    by_cases hqp : q = p
    · subst hqp
      have : Function.update s.connState q ConnSt.connected q = .fresh := hq
      rw [Function.update_same] at this
      cases this
    · have hq2 : s.connState q = .fresh := by
        have : Function.update s.connState p ConnSt.connected q = .fresh := hq
        rwa [Function.update_noteq hqp] at this
      exact hI.freshNone q hq2
  · rw [List.nodup_append]
    exact ⟨hI.unNodup, List.nodup_singleton p, by
      intro q hq hq2
      rw [List.mem_singleton] at hq2
      exact hpun (hq2 ▸ hq)⟩
  · intro q hq
    rcases List.mem_append.mp hq with hq | hq
    · exact hI.unDisj q hq
    · rw [List.mem_singleton] at hq
      exact hq ▸ hpnm
  · intro q hq
    rcases List.mem_append.mp hq with hq | hq
    · show Function.update s.connState p ConnSt.connected q ≠ .fresh
      by_cases hqp : q = p
      · subst hqp
        rw [Function.update_same]
        intro hc
        cases hc
      · rw [Function.update_noteq hqp]
        exact hI.unNotFresh q hq
    · rw [List.mem_singleton] at hq
      subst hq
      show Function.update s.connState q ConnSt.connected q ≠ .fresh
      rw [Function.update_same]
      intro hc
      cases hc
  · intro hnc q hq
    have hdr : s.unemployed = [] := hI.drain hnc
    rw [hdr, List.nil_append, List.mem_singleton] at hq
    subst hq
    show Function.update s.connState q ConnSt.connected q = .connected
    rw [Function.update_same]
  · exact hI.ptrFull

theorem inv_close {s s1 : DM} (hI : Inv s) {p : PeerId}
    (hs : step s (.peerClose p) = some s1) : Inv s1 := by
  simp only [step] at hs
  by_cases hg : s.connState p = .connected
  swap
  · rw [if_neg hg] at hs
    cases hs
  rw [if_pos hg] at hs
  rcases hw : s.assigned p with _ | w
  · -- the peer held no piece: only connState / totalConnected change
    simp only [hw] at hs
    injection hs with hs
    subst hs
    refine ⟨CoreInv.transport hI.core rfl rfl rfl rfl, ?_, hI.pAssigned, ?_, ?_,
      hI.unNodup, hI.unDisj, ?_, hI.drain, hI.ptrFull⟩
    · intro j hj
      have hjne : j.peer ≠ p := by
        intro he
        have := hI.pAssigned j hj
        rw [he, hw] at this
        cases this
      show Function.update s.connState p .closed j.peer = .connected
      rw [Function.update_noteq hjne]
      exact hI.pConn j hj
    · intro q v hq hv
      by_cases hqp : q = p
      · subst hqp
        have : Function.update s.connState q ConnSt.closed q = .connected := hq
        rw [Function.update_same] at this
        cases this
      · have hq2 : s.connState q = .connected := by
          have : Function.update s.connState p ConnSt.closed q = .connected := hq
          rwa [Function.update_noteq hqp] at this
        exact hI.aPend q v hq2 hv
    · intro q hq
      by_cases hqp : q = p
      · subst hqp
        have : Function.update s.connState q ConnSt.closed q = .fresh := hq
        rw [Function.update_same] at this
        cases this
      · have hq2 : s.connState q = .fresh := by
          have : Function.update s.connState p ConnSt.closed q = .fresh := hq
          rwa [Function.update_noteq hqp] at this
        exact hI.freshNone q hq2
    · intro q hq
      by_cases hqp : q = p
      · subst hqp
        show Function.update s.connState q ConnSt.closed q ≠ .fresh
        rw [Function.update_same]
        intro hc
        cases hc
      · show Function.update s.connState p ConnSt.closed q ≠ .fresh
        rw [Function.update_noteq hqp]
        exact hI.unNotFresh q hq
  · -- the peer was mid-piece: remove its pending entry, maybe requeue
    simp only [hw] at hs
    have hpair : (⟨p, w⟩ : Job) ∈ s.pending.jobs := hI.aPend p w hg hw
    rcases jobs_decomp_of_mem hI.core.pNodup hpair with ⟨l1, l2, hsplit, hl1, hl2⟩
    obtain ⟨hjobs2, hptr2⟩ := removeWorker_spec hsplit hl1 hI.ptrFull
    have hpq : s.pending.removeWorker p = ⟨l1 ++ l2, (l1 ++ l2).length⟩ := by
      rcases hr : s.pending.removeWorker p with ⟨jobs0, ptr0⟩
      rw [hr] at hjobs2 hptr2
      have h1 : jobs0 = l1 ++ l2 := hjobs2
      have h2 : ptr0 = (l1 ++ l2).length := hptr2
      rw [h1, h2]
    have hsubJ : ∀ j ∈ l1 ++ l2, j ∈ s.pending.jobs := by
      intro j hj
      rw [hsplit]
      exact (sublist_middle l1 l2 ⟨p, w⟩).subset hj
    have hwidx : w.index ∈ pIdx s := List.mem_map.mpr ⟨⟨p, w⟩, hpair, rfl⟩
    have hpeers_ne : ∀ j ∈ l1 ++ l2, j.peer ≠ p := by
      intro j hj
      rcases List.mem_append.mp hj with hj | hj
      · exact hl1 j hj
      · exact hl2 j hj
    -- facts shared by the requeue / no-requeue results
    have hPCONN : ∀ j ∈ l1 ++ l2,
        Function.update s.connState p ConnSt.closed j.peer = .connected := by
      intro j hj
      rw [Function.update_noteq (hpeers_ne j hj)]
      exact hI.pConn j (hsubJ j hj)
    have hPASG : ∀ j ∈ l1 ++ l2, s.assigned j.peer = some j.work := by
      intro j hj
      exact hI.pAssigned j (hsubJ j hj)
    have hAPEND : ∀ q v, Function.update s.connState p ConnSt.closed q = .connected →
        s.assigned q = some v → (⟨q, v⟩ : Job) ∈ l1 ++ l2 := by
      intro q v hq hv
      by_cases hqp : q = p
      · subst hqp
        rw [Function.update_same] at hq
        cases hq
      · rw [Function.update_noteq hqp] at hq
        have hmem := hI.aPend q v hq hv
        rw [hsplit] at hmem
        rcases List.mem_append.mp hmem with hm | hm
        · exact List.mem_append_left _ hm
        · rcases List.mem_cons.mp hm with hm | hm
          · exfalso
            apply hqp
            have : (⟨q, v⟩ : Job).peer = (⟨p, w⟩ : Job).peer := by rw [hm]
            exact this
          · exact List.mem_append_right _ hm
    have hFRESH : ∀ q, Function.update s.connState p ConnSt.closed q = .fresh →
        s.assigned q = none := by
      intro q hq
      by_cases hqp : q = p
      · subst hqp
        rw [Function.update_same] at hq
        cases hq
      · rw [Function.update_noteq hqp] at hq
        exact hI.freshNone q hq
    have hUNF : ∀ q ∈ s.unemployed, Function.update s.connState p ConnSt.closed q ≠ .fresh := by
      intro q hq
      by_cases hqp : q = p
      · subst hqp
        rw [Function.update_same]
        intro hc
        cases hc
      · rw [Function.update_noteq hqp]
        exact hI.unNotFresh q hq
    have hPNODUP : ((l1 ++ l2).map Job.peer).Nodup := by
      have := hI.core.pNodup
      rw [pPeers, hsplit] at this
      exact ((sublist_middle l1 l2 ⟨p, w⟩).map Job.peer).nodup this
    have hPRANGE : ∀ j ∈ l1 ++ l2, j.work.index < s.nPieces := by
      intro j hj
      exact hI.core.pendRange j (hsubJ j hj)
    have hUDISJ : ∀ q ∈ s.unemployed, q ∉ (l1 ++ l2).map Job.peer := by
      intro q hq hmem
      rcases List.mem_map.mp hmem with ⟨j, hj, hjq⟩
      exact hI.unDisj q hq (List.mem_map.mpr ⟨j, hsubJ j hj, hjq⟩)
    have hUPEND2 : ∀ u ∈ s.unclaimed, u.index ∉ (l1 ++ l2).map (fun j => j.work.index) := by
      intro u hu hmem
      apply hI.core.uPend u hu
      rcases List.mem_map.mp hmem with ⟨j, hj, hji⟩
      exact List.mem_map.mpr ⟨j, hsubJ j hj, hji⟩
    by_cases hcond : w.index ∉ s.collected ∧
        (Pending.removeWorker s.pending p).numWorkers w = 0
    · rw [if_pos hcond] at hs
      injection hs with hs
      subst hs
      rw [hpq]
      have hcnt : ∀ j ∈ l1 ++ l2, j.work.index ≠ w.index := by
        have h0 := hcond.2
        unfold Pending.numWorkers at h0
        rw [hjobs2] at h0
        rw [List.countP_eq_zero] at h0
        intro j hj he
        have := h0 j hj
        simp [he] at this
      have hwuIdx : w.index ∉ uIdx s := by
        intro hmem
        rcases List.mem_map.mp hmem with ⟨u, hu, hui⟩
        exact hI.core.uPend u hu (hui ▸ hwidx)
      refine ⟨⟨?_, ?_, ?_, ?_, ?_, ?_, ?_, ?_⟩, hPCONN, hPASG, hAPEND, hFRESH,
        hI.unNodup, ?_, hUNF, hI.drain, rfl⟩
      · show ((s.unclaimed ++ [w]).map Work.index).Nodup
        rw [List.map_append]
        rw [List.nodup_append]
        refine ⟨hI.core.uNodup, by simp, ?_⟩
        intro i hiu hiw
        simp only [List.map_cons, List.map_nil, List.mem_singleton] at hiw
        exact hwuIdx (hiw ▸ hiu)
      · intro u hu
        show u.index ∉ (l1 ++ l2).map (fun j => j.work.index)
        rcases List.mem_append.mp hu with hu | hu
        · exact hUPEND2 u hu
        · rw [List.mem_singleton] at hu
          subst hu
          intro hmem
          rcases List.mem_map.mp hmem with ⟨j, hj, hji⟩
          exact hcnt j hj hji
      · intro u hu
        rcases List.mem_append.mp hu with hu | hu
        · exact hI.core.uCol u hu
        · rw [List.mem_singleton] at hu
          subst hu
          exact hcond.1
      · intro i hi
        rcases hI.core.cover i hi with hc | hc | hc
        · left
          show i ∈ (s.unclaimed ++ [w]).map Work.index
          rw [List.map_append]
          exact List.mem_append_left _ hc
        · rcases List.mem_map.mp hc with ⟨j, hj, hji⟩
          rw [hsplit] at hj
          rcases List.mem_append.mp hj with hj | hj
          · exact Or.inr (Or.inl (List.mem_map.mpr ⟨j, List.mem_append_left _ hj, hji⟩))
          · rcases List.mem_cons.mp hj with hj | hj
            · left
              show i ∈ (s.unclaimed ++ [w]).map Work.index
              rw [List.map_append]
              refine List.mem_append_right _ ?_
              simp only [List.map_cons, List.map_nil, List.mem_singleton]
              rw [← hji, hj]
            · exact Or.inr (Or.inl (List.mem_map.mpr ⟨j, List.mem_append_right _ hj, hji⟩))
        · exact Or.inr (Or.inr hc)
      · exact hI.core.colRange
      · intro j hj
        exact hPRANGE j hj
      · intro u hu
        rcases List.mem_append.mp hu with hu | hu
        · exact hI.core.unclRange u hu
        · rw [List.mem_singleton] at hu
          subst hu
          exact hI.core.pendRange ⟨p, u⟩ hpair
      · exact hPNODUP
      · intro q hq
        exact hUDISJ q hq
    · rw [if_neg hcond] at hs
      injection hs with hs
      subst hs
      rw [hpq]
      refine ⟨⟨hI.core.uNodup, ?_, hI.core.uCol, ?_, hI.core.colRange, ?_,
        hI.core.unclRange, hPNODUP⟩, hPCONN, hPASG, hAPEND, hFRESH,
        hI.unNodup, ?_, hUNF, hI.drain, rfl⟩
      · intro u hu
        exact hUPEND2 u hu
      · intro i hi
        rcases hI.core.cover i hi with hc | hc | hc
        · exact Or.inl hc
        · rcases List.mem_map.mp hc with ⟨j, hj, hji⟩
          rw [hsplit] at hj
          rcases List.mem_append.mp hj with hj | hj
          · exact Or.inr (Or.inl (List.mem_map.mpr ⟨j, List.mem_append_left _ hj, hji⟩))
          · rcases List.mem_cons.mp hj with hj | hj
            · -- the removed entry carried i = w.index; the failed requeue
              -- condition says the piece is collected or another worker has it
              have hiw : i = w.index := by rw [← hji, hj]
              subst hiw
              rw [Classical.not_and_iff_or_not_not] at hcond
              rcases hcond with hcol | hnw
              · rw [Classical.not_not] at hcol
                exact Or.inr (Or.inr hcol)
              · have hpos : 0 < (Pending.removeWorker s.pending p).numWorkers w := by
                  omega
                unfold Pending.numWorkers at hpos
                rw [hjobs2, List.countP_pos_iff] at hpos
                rcases hpos with ⟨j2, hj2, hj2i⟩
                have : j2.work.index = w.index := by simpa using hj2i
                exact Or.inr (Or.inl (List.mem_map.mpr ⟨j2, hj2, this⟩))
            · exact Or.inr (Or.inl (List.mem_map.mpr ⟨j, List.mem_append_right _ hj, hji⟩))
        · exact Or.inr (Or.inr hc)
      · intro j hj
        exact hPRANGE j hj
      · intro q hq
        exact hUDISJ q hq

theorem completeHandler_state_inv (t : DM) (p : PeerId) (w : Work) (buf : List Nat)
    (hc : CoreInv t)
    (hpair : (⟨p, w⟩ : Job) ∈ t.pending.jobs)
    (hpconn : t.connState p = .connected)
    (hpc : ∀ j ∈ t.pending.jobs, t.connState j.peer = .connected)
    (hpa : ∀ j ∈ t.pending.jobs, j.peer ≠ p → t.assigned j.peer = some j.work)
    (hapn : t.assigned p = none)
    (hap : ∀ q v, q ≠ p → t.connState q = .connected → t.assigned q = some v →
      (⟨q, v⟩ : Job) ∈ t.pending.jobs)
    (hfn : ∀ q, t.connState q = .fresh → t.assigned q = none)
    (hun : t.unemployed.Nodup)
    (hud : ∀ q ∈ t.unemployed, q ∉ pPeers t)
    (huf : ∀ q ∈ t.unemployed, t.connState q ≠ .fresh)
    (hdrain : t.collected.card ≠ t.nPieces → t.unemployed = [])
    (hptr : t.pending.startPtr = t.pending.jobs.length) :
    Inv (completeHandler t p w buf).state := by
  rcases jobs_decomp_of_mem hc.pNodup hpair with ⟨l1, l2, hsplit, hl1, hl2⟩
  obtain ⟨hjobs2, hptr2⟩ := removeWorker_spec hsplit hl1 hptr
  have hpq : t.pending.removeWorker p = ⟨l1 ++ l2, (l1 ++ l2).length⟩ := by
    rcases hr : t.pending.removeWorker p with ⟨jobs0, ptr0⟩
    rw [hr] at hjobs2 hptr2
    have h1 : jobs0 = l1 ++ l2 := hjobs2
    have h2 : ptr0 = (l1 ++ l2).length := hptr2
    rw [h1, h2]
  have hsubJ : ∀ j ∈ l1 ++ l2, j ∈ t.pending.jobs := by
    intro j hj
    rw [hsplit]
    exact (sublist_middle l1 l2 ⟨p, w⟩).subset hj
  have hwidx : w.index ∈ pIdx t := List.mem_map.mpr ⟨⟨p, w⟩, hpair, rfl⟩
  have hwlt : w.index < t.nPieces := hc.pendRange ⟨p, w⟩ hpair
  have hpeers_ne : ∀ j ∈ l1 ++ l2, j.peer ≠ p := by
    intro j hj
    rcases List.mem_append.mp hj with hj | hj
    · exact hl1 j hj
    · exact hl2 j hj
  have hPNODUP : ((l1 ++ l2).map Job.peer).Nodup := by
    have := hc.pNodup
    rw [pPeers, hsplit] at this
    exact ((sublist_middle l1 l2 ⟨p, w⟩).map Job.peer).nodup this
  have hPRANGE : ∀ j ∈ l1 ++ l2, j.work.index < t.nPieces := fun j hj =>
    hc.pendRange j (hsubJ j hj)
  have hUDISJ : ∀ q ∈ t.unemployed, q ∉ (l1 ++ l2).map Job.peer := by
    intro q hq hmem
    rcases List.mem_map.mp hmem with ⟨j, hj, hjq⟩
    exact hud q hq (List.mem_map.mpr ⟨j, hsubJ j hj, hjq⟩)
  have hUPEND2 : ∀ u ∈ t.unclaimed, u.index ∉ (l1 ++ l2).map (fun j => j.work.index) := by
    intro u hu hmem
    apply hc.uPend u hu
    rcases List.mem_map.mp hmem with ⟨j, hj, hji⟩
    exact List.mem_map.mpr ⟨j, hsubJ j hj, hji⟩
  have hpun : p ∉ t.unemployed := by
    intro hp
    exact hud p hp (List.mem_map.mpr ⟨⟨p, w⟩, hpair, rfl⟩)
  have hcount : t.pending.numWorkers w =
      (l1 ++ l2).countP (fun j => j.work.index == w.index) + 1 := by
    unfold Pending.numWorkers
    rw [hsplit, List.countP_append, List.countP_cons, List.countP_append]
    simp
    omega
  have hAPC : ∀ j ∈ l1 ++ l2, t.connState j.peer = .connected := fun j hj =>
    hpc j (hsubJ j hj)
  have hAPA : ∀ j ∈ l1 ++ l2, t.assigned j.peer = some j.work := fun j hj =>
    hpa j (hsubJ j hj) (hpeers_ne j hj)
  have hAAP : ∀ q v, t.connState q = .connected → t.assigned q = some v →
      (⟨q, v⟩ : Job) ∈ l1 ++ l2 := by
    intro q v hq hv
    by_cases hqp : q = p
    · subst hqp
      rw [hapn] at hv
      cases hv
    · have hmem := hap q v hqp hq hv
      rw [hsplit] at hmem
      rcases List.mem_append.mp hmem with hm | hm
      · exact List.mem_append_left _ hm
      · rcases List.mem_cons.mp hm with hm | hm
        · exfalso
          apply hqp
          have : (⟨q, v⟩ : Job).peer = (⟨p, w⟩ : Job).peer := by rw [hm]
          exact this
        · exact List.mem_append_right _ hm
  unfold completeHandler
  by_cases hhash : t.sha1fn buf ≠ t.pieceHashes w.index
  · rw [if_pos hhash]
    rcases hrq : decide (w.index ∉ t.collected) && decide (t.pending.numWorkers w = 1) with _ | _
    · -- no requeue
      simp only [hrq, Bool.false_eq_true, if_false, hpq]
      refine (assignWork_inv _ ?_ ?_ ?_ ?_ ?_ ?_ ?_ ?_ ?_ ?_).1
      · refine ⟨hc.uNodup, ?_, hc.uCol, ?_, hc.colRange, hPRANGE, hc.unclRange, hPNODUP⟩
        · intro u hu
          exact hUPEND2 u hu
        · intro i hi
          rcases hc.cover i hi with hco | hco | hco
          · exact Or.inl hco
          · rcases List.mem_map.mp hco with ⟨j, hj, hji⟩
            rw [hsplit] at hj
            rcases List.mem_append.mp hj with hj | hj
            · exact Or.inr (Or.inl (List.mem_map.mpr ⟨j, List.mem_append_left _ hj, hji⟩))
            · rcases List.mem_cons.mp hj with hj | hj
              · have hiw : i = w.index := by rw [← hji, hj]
                subst hiw
                rw [Bool.and_eq_false_iff] at hrq
                rcases hrq with hcol | hnw
                · rw [decide_eq_false_iff_not, Classical.not_not] at hcol
                  exact Or.inr (Or.inr hcol)
                · rw [decide_eq_false_iff_not] at hnw
                  have hpos : 0 < (l1 ++ l2).countP (fun j => j.work.index == w.index) := by
                    omega
                  rw [List.countP_pos_iff] at hpos
                  rcases hpos with ⟨j2, hj2, hj2i⟩
                  have hji2 : j2.work.index = w.index := by simpa using hj2i
                  exact Or.inr (Or.inl (List.mem_map.mpr ⟨j2, hj2, hji2⟩))
              · exact Or.inr (Or.inl (List.mem_map.mpr ⟨j, List.mem_append_right _ hj, hji⟩))
          · exact Or.inr (Or.inr hco)
      · exact hAPC
      · exact hAPA
      · exact hAAP
      · exact hfn
      · rw [List.nodup_append]
        exact ⟨hun, List.nodup_singleton p, by
          intro q hq hq2
          rw [List.mem_singleton] at hq2
          exact hpun (hq2 ▸ hq)⟩
      · intro q hq
        rcases List.mem_append.mp hq with hq | hq
        · exact hUDISJ q hq
        · rw [List.mem_singleton] at hq
          subst hq
          intro hmem
          rcases List.mem_map.mp hmem with ⟨j, hj, hjq⟩
          exact hpeers_ne j hj hjq
      · intro q hq
        rcases List.mem_append.mp hq with hq | hq
        · exact huf q hq
        · rw [List.mem_singleton] at hq
          subst hq
          rw [hpconn]
          intro hx
          cases hx
      · intro hnc q hq
        rw [hdrain hnc, List.nil_append, List.mem_singleton] at hq
        subst hq
        exact hpconn
      · rfl
    · -- requeue
      simp only [hrq, if_true, hpq]
      rw [Bool.and_eq_true, decide_eq_true_eq, decide_eq_true_eq] at hrq
      have hcnt0 : (l1 ++ l2).countP (fun j => j.work.index == w.index) = 0 := by
        omega
      have hcnt : ∀ j ∈ l1 ++ l2, j.work.index ≠ w.index := by
        rw [List.countP_eq_zero] at hcnt0
        intro j hj he
        have := hcnt0 j hj
        simp [he] at this
      have hwuIdx : w.index ∉ uIdx t := by
        intro hmem
        rcases List.mem_map.mp hmem with ⟨u, hu, hui⟩
        exact hc.uPend u hu (hui ▸ hwidx)
      refine (assignWork_inv _ ?_ ?_ ?_ ?_ ?_ ?_ ?_ ?_ ?_ ?_).1
      · refine ⟨?_, ?_, ?_, ?_, hc.colRange, hPRANGE, ?_, hPNODUP⟩
        · show ((t.unclaimed ++ [w]).map Work.index).Nodup
          rw [List.map_append, List.nodup_append]
          refine ⟨hc.uNodup, by simp, ?_⟩
          intro i hiu hiw
          simp only [List.map_cons, List.map_nil, List.mem_singleton] at hiw
          exact hwuIdx (hiw ▸ hiu)
        · intro u hu
          show u.index ∉ (l1 ++ l2).map (fun j => j.work.index)
          rcases List.mem_append.mp hu with hu | hu
          · exact hUPEND2 u hu
          · rw [List.mem_singleton] at hu
            subst hu
            intro hmem
            rcases List.mem_map.mp hmem with ⟨j, hj, hji⟩
            exact hcnt j hj hji
        · intro u hu
          rcases List.mem_append.mp hu with hu | hu
          · exact hc.uCol u hu
          · rw [List.mem_singleton] at hu
            subst hu
            exact hrq.1
        · intro i hi
          rcases hc.cover i hi with hco | hco | hco
          · left
            show i ∈ (t.unclaimed ++ [w]).map Work.index
            rw [List.map_append]
            exact List.mem_append_left _ hco
          · rcases List.mem_map.mp hco with ⟨j, hj, hji⟩
            rw [hsplit] at hj
            rcases List.mem_append.mp hj with hj | hj
            · exact Or.inr (Or.inl (List.mem_map.mpr ⟨j, List.mem_append_left _ hj, hji⟩))
            · rcases List.mem_cons.mp hj with hj | hj
              · left
                show i ∈ (t.unclaimed ++ [w]).map Work.index
                rw [List.map_append]
                refine List.mem_append_right _ ?_
                simp only [List.map_cons, List.map_nil, List.mem_singleton]
                rw [← hji, hj]
              · exact Or.inr (Or.inl (List.mem_map.mpr ⟨j, List.mem_append_right _ hj, hji⟩))
          · exact Or.inr (Or.inr hco)
        · intro u hu
          rcases List.mem_append.mp hu with hu | hu
          · exact hc.unclRange u hu
          · rw [List.mem_singleton] at hu
            subst hu
            exact hwlt
      · exact hAPC
      · exact hAPA
      · exact hAAP
      · exact hfn
      · rw [List.nodup_append]
        exact ⟨hun, List.nodup_singleton p, by
          intro q hq hq2
          rw [List.mem_singleton] at hq2
          exact hpun (hq2 ▸ hq)⟩
      · intro q hq
        rcases List.mem_append.mp hq with hq | hq
        · exact hUDISJ q hq
        · rw [List.mem_singleton] at hq
          subst hq
          intro hmem
          rcases List.mem_map.mp hmem with ⟨j, hj, hjq⟩
          exact hpeers_ne j hj hjq
      · intro q hq
        rcases List.mem_append.mp hq with hq | hq
        · exact huf q hq
        · rw [List.mem_singleton] at hq
          subst hq
          rw [hpconn]
          intro hx
          cases hx
      · intro hnc q hq
        rw [hdrain hnc, List.nil_append, List.mem_singleton] at hq
        subst hq
        exact hpconn
      · rfl
  · -- hash matches: collect, remove, re-assign
    rw [if_neg hhash]
    simp only [hpq]
    have hsubr : insert w.index t.collected ⊆ Finset.range t.nPieces := by
      intro x hx
      rcases Finset.mem_insert.mp hx with hx | hx
      · exact Finset.mem_range.mpr (hx ▸ hwlt)
      · exact Finset.mem_range.mpr (hc.colRange x hx)
    have hcard_le : (insert w.index t.collected).card ≤ t.nPieces := by
      have := Finset.card_le_card hsubr
      simpa using this
    have hmono : t.collected.card ≤ (insert w.index t.collected).card :=
      Finset.card_le_card (Finset.subset_insert _ _)
    refine (assignWork_inv _ ?_ ?_ ?_ ?_ ?_ ?_ ?_ ?_ ?_ ?_).1
    · refine ⟨hc.uNodup, ?_, ?_, ?_, ?_, hPRANGE, hc.unclRange, hPNODUP⟩
      · intro u hu
        exact hUPEND2 u hu
      · intro u hu
        intro hmem
        rcases Finset.mem_insert.mp hmem with hx | hx
        · exact hc.uPend u hu (hx ▸ hwidx)
        · exact hc.uCol u hu hx
      · intro i hi
        rcases hc.cover i hi with hco | hco | hco
        · exact Or.inl hco
        · rcases List.mem_map.mp hco with ⟨j, hj, hji⟩
          rw [hsplit] at hj
          rcases List.mem_append.mp hj with hj | hj
          · exact Or.inr (Or.inl (List.mem_map.mpr ⟨j, List.mem_append_left _ hj, hji⟩))
          · rcases List.mem_cons.mp hj with hj | hj
            · have hiw : i = w.index := by rw [← hji, hj]
              subst hiw
              exact Or.inr (Or.inr (Finset.mem_insert_self _ _))
            · exact Or.inr (Or.inl (List.mem_map.mpr ⟨j, List.mem_append_right _ hj, hji⟩))
        · exact Or.inr (Or.inr (Finset.mem_insert_of_mem hco))
      · intro i hi
        rcases Finset.mem_insert.mp hi with hx | hx
        · exact hx ▸ hwlt
        · exact hc.colRange i hx
    · exact hAPC
    · exact hAPA
    · exact hAAP
    · exact hfn
    · rw [List.nodup_append]
      exact ⟨hun, List.nodup_singleton p, by
        intro q hq hq2
        rw [List.mem_singleton] at hq2
        exact hpun (hq2 ▸ hq)⟩
    · intro q hq
      rcases List.mem_append.mp hq with hq | hq
      · exact hUDISJ q hq
      · rw [List.mem_singleton] at hq
        subst hq
        intro hmem
        rcases List.mem_map.mp hmem with ⟨j, hj, hjq⟩
        exact hpeers_ne j hj hjq
    · intro q hq
      rcases List.mem_append.mp hq with hq | hq
      · exact huf q hq
      · rw [List.mem_singleton] at hq
        subst hq
        rw [hpconn]
        intro hx
        cases hx
    · intro hnc q hq
      have hnc3 : (insert w.index t.collected).card ≠ t.nPieces := hnc
      have hnc2 : t.collected.card ≠ t.nPieces := by
        intro he
        apply hnc3
        omega
      rw [hdrain hnc2, List.nil_append, List.mem_singleton] at hq
      subst hq
      exact hpconn
    · rfl

theorem inv_done {s s1 : DM} (hI : Inv s) {p : PeerId} {buf : List Nat}
    (hs : step s (.peerDone p buf) = some s1) : Inv s1 := by
  simp only [step] at hs
  by_cases hg : s.connState p = .connected
  swap
  · rw [if_neg hg] at hs
    cases hs
  rw [if_pos hg] at hs
  rcases hw : s.assigned p with _ | w
  · simp only [hw] at hs
    cases hs
  simp only [hw] at hs
  injection hs with hs
  subst hs
  refine completeHandler_state_inv _ p w buf ?_ ?_ hg ?_ ?_ ?_ ?_ ?_ hI.unNodup
    hI.unDisj hI.unNotFresh hI.drain hI.ptrFull
  · exact CoreInv.transport hI.core rfl rfl rfl rfl
  · exact hI.aPend p w hg hw
  · exact hI.pConn
  · intro j hj hjne
    show Function.update s.assigned p none j.peer = some j.work
    rw [Function.update_noteq hjne]
    exact hI.pAssigned j hj
  · show Function.update s.assigned p none p = none
    rw [Function.update_same]
  · intro q v hqp hq hv
    have hv2 : s.assigned q = some v := by
      have : Function.update s.assigned p none q = some v := hv
      rwa [Function.update_noteq hqp] at this
    exact hI.aPend q v hq hv2
  · intro q hq
    by_cases hqp : q = p
    · subst hqp
      show Function.update s.assigned q none q = none
      rw [Function.update_same]
    · show Function.update s.assigned p none q = none
      rw [Function.update_noteq hqp]
      exact hI.freshNone q hq

theorem inv_step {s s1 : DM} (hI : Inv s) {e : Ev} (hs : step s e = some s1) : Inv s1 := by
  cases e with
  | peerReady p bf =>
    simp only [step] at hs
    by_cases hg : s.connState p = .fresh
    · rw [if_pos hg] at hs
      injection hs with hs
      subst hs
      exact inv_ready hI p bf hg
    · rw [if_neg hg] at hs
      cases hs
  | peerClose p => exact inv_close hI hs
  | peerHave p i =>
    simp only [step] at hs
    by_cases hg : s.connState p = .connected
    · rw [if_pos hg] at hs
      injection hs with hs
      subst hs
      exact inv_have hI p i
    · rw [if_neg hg] at hs
      cases hs
  | peerDone p buf => exact inv_done hI hs

/-- Every reachable coordinator state satisfies the boundary invariant. -/
theorem reachable_inv {s : DM} (h : Reachable s) : Inv s := by
  induction h with
  | init hashes ps tl f => exact inv_init hashes ps tl f
  | next _ hs ih => exact inv_step ih hs

/-! Section 7 :  Claims about the coordinator -/

def pIdxF (s : DM) : Finset Nat := (pIdx s).toFinset

/-- Shared concrete stand-in for SHA-1 in counterexample traces: the first
byte of the buffer. -/
def bHead (b : List Nat) : Nat := b.headD 0

/-- Claim C1 (amended): in every reachable coordinator state, every piece
index in `[0, n_pieces)` is in at least one of unclaimed / pending /
collector; an unclaimed index is in neither of the other two (but a pending
index may simultaneously be in the collector after a redundant assignment
completes); and the count identity
`|unclaimed| + #(distinct pending indices not in collector) + |collector| =
n_pieces` holds. -/
theorem piece_conservation_counting (s : DM) (h : Reachable s) :
    (∀ i, i < s.nPieces → i ∈ uIdx s ∨ i ∈ pIdx s ∨ i ∈ s.collected)
    ∧ (∀ w ∈ s.unclaimed, w.index ∉ pIdx s ∧ w.index ∉ s.collected)
    ∧ s.unclaimed.length + (pIdxF s \ s.collected).card + s.collected.card = s.nPieces := by
  have hI := reachable_inv h
  refine ⟨hI.core.cover, fun w hw => ⟨hI.core.uPend w hw, hI.core.uCol w hw⟩, ?_⟩
  classical
  have hUeq : (uIdx s).toFinset.card = s.unclaimed.length := by
    rw [List.toFinset_card_of_nodup hI.core.uNodup]
    simp [uIdx]
  have hmemU : ∀ i, i ∈ (uIdx s).toFinset ↔ i ∈ uIdx s := fun i => List.mem_toFinset
  have hmemP : ∀ i, i ∈ pIdxF s ↔ i ∈ pIdx s := fun i => List.mem_toFinset
  have hUnotP : ∀ i ∈ uIdx s, i ∉ pIdx s := by
    intro i hi
    rcases List.mem_map.mp hi with ⟨u, hu, hui⟩
    exact hui ▸ hI.core.uPend u hu
  have hUnotC : ∀ i ∈ uIdx s, i ∉ s.collected := by
    intro i hi
    rcases List.mem_map.mp hi with ⟨u, hu, hui⟩
    exact hui ▸ hI.core.uCol u hu
  have hdisj1 : Disjoint ((uIdx s).toFinset) (pIdxF s \ s.collected) := by
    rw [Finset.disjoint_left]
    intro i hi hi2
    exact hUnotP i ((hmemU i).mp hi) ((hmemP i).mp (Finset.mem_sdiff.mp hi2).1)
  have hdisj2 : Disjoint ((uIdx s).toFinset ∪ (pIdxF s \ s.collected)) s.collected := by
    rw [Finset.disjoint_left]
    intro i hi hiC
    rcases Finset.mem_union.mp hi with hi | hi
    · exact hUnotC i ((hmemU i).mp hi) hiC
    · exact (Finset.mem_sdiff.mp hi).2 hiC
  have hunion : (uIdx s).toFinset ∪ (pIdxF s \ s.collected) ∪ s.collected
      = Finset.range s.nPieces := by
    apply Finset.ext
    intro i
    constructor
    · intro hi
      rcases Finset.mem_union.mp hi with hi | hi
      · rcases Finset.mem_union.mp hi with hi | hi
        · rcases List.mem_map.mp ((hmemU i).mp hi) with ⟨u, hu, hui⟩
          exact Finset.mem_range.mpr (hui ▸ hI.core.unclRange u hu)
        · rcases List.mem_map.mp ((hmemP i).mp (Finset.mem_sdiff.mp hi).1) with ⟨j, hj, hji⟩
          exact Finset.mem_range.mpr (hji ▸ hI.core.pendRange j hj)
      · exact Finset.mem_range.mpr (hI.core.colRange i hi)
    · intro hi
      rcases hI.core.cover i (Finset.mem_range.mp hi) with hc | hc | hc
      · exact Finset.mem_union_left _ (Finset.mem_union_left _ ((hmemU i).mpr hc))
      · by_cases hic : i ∈ s.collected
        · exact Finset.mem_union_right _ hic
        · exact Finset.mem_union_left _ (Finset.mem_union_right _
            (Finset.mem_sdiff.mpr ⟨(hmemP i).mpr hc, hic⟩))
      · exact Finset.mem_union_right _ hc
  have hcards := congrArg Finset.card hunion
  rw [Finset.card_union_of_disjoint hdisj2, Finset.card_union_of_disjoint hdisj1,
    Finset.card_range] at hcards
  omega

/-- Claim C1 witness: the freshly constructed coordinator for a 2-piece
download satisfies the (amended) conservation statement. -/
theorem piece_conservation_counting_witness :
    (∀ i, i < (DM.init [5, 6] 4 8 bHead).nPieces →
      i ∈ uIdx (DM.init [5, 6] 4 8 bHead) ∨ i ∈ pIdx (DM.init [5, 6] 4 8 bHead)
        ∨ i ∈ (DM.init [5, 6] 4 8 bHead).collected)
    ∧ (∀ w ∈ (DM.init [5, 6] 4 8 bHead).unclaimed,
        w.index ∉ pIdx (DM.init [5, 6] 4 8 bHead)
          ∧ w.index ∉ (DM.init [5, 6] 4 8 bHead).collected)
    ∧ (DM.init [5, 6] 4 8 bHead).unclaimed.length
        + (pIdxF (DM.init [5, 6] 4 8 bHead) \ (DM.init [5, 6] 4 8 bHead).collected).card
        + (DM.init [5, 6] 4 8 bHead).collected.card = (DM.init [5, 6] 4 8 bHead).nPieces :=
  piece_conservation_counting _ (Reachable.init [5, 6] 4 8 bHead)

/-- Claim C9 (amended): in every reachable coordinator state, no peer is in
both the idle (unemployed) queue and the pending queue, and a peer whose
'close' has been handled (connection state closed) is in no pending entry; it
may however remain in the idle queue (see the counterexample). -/
theorem peer_in_at_most_one_queue (s : DM) (h : Reachable s) :
    (∀ p ∈ s.unemployed, ∀ j ∈ s.pending.jobs, j.peer ≠ p)
    ∧ (∀ p, s.connState p = .closed → ∀ j ∈ s.pending.jobs, j.peer ≠ p) := by
  have hI := reachable_inv h
  constructor
  · intro p hp j hj he
    exact hI.unDisj p hp (List.mem_map.mpr ⟨j, hj, he⟩)
  · intro p hcl j hj he
    have hcon := hI.pConn j hj
    rw [he, hcl] at hcon
    cases hcon

/-- Claim C9 witness: the exclusivity statement at a freshly constructed
coordinator. -/
theorem peer_in_at_most_one_queue_witness :
    (∀ p ∈ (DM.init [5] 4 4 bHead).unemployed,
      ∀ j ∈ (DM.init [5] 4 4 bHead).pending.jobs, j.peer ≠ p)
    ∧ (∀ p, (DM.init [5] 4 4 bHead).connState p = .closed →
        ∀ j ∈ (DM.init [5] 4 4 bHead).pending.jobs, j.peer ≠ p) :=
  peer_in_at_most_one_queue _ (Reachable.init [5] 4 4 bHead)

theorem removeWorker_jobs {pq : Pending} {p : PeerId} {w : Work} {l1 l2 : List Job}
    (hjobs : pq.jobs = l1 ++ ⟨p, w⟩ :: l2) (hl1 : ∀ j ∈ l1, j.peer ≠ p) :
    (pq.removeWorker p).jobs = l1 ++ l2 := by
  have haux : removeWorkerAux pq.jobs p = some (l1 ++ l2, l1.length) := by
    rw [hjobs]
    exact removeWorkerAux_decomp l1 ⟨p, w⟩ l2 p rfl hl1
  unfold Pending.removeWorker
  rw [haux]

/-- Claim C2 (amended): on a 'download complete' for `(p, w, buf)` handled in
a state whose pending queue has pairwise-distinct peers and contains
`(p, w)`: `collect` is called exactly when the hash matches; on mismatch the
work is requeued exactly when the collector lacks `w.index` and
`numWorkers(w) = 1`; in both cases the `(p, w)` pending entry is removed and
`p` is pushed onto idle.  The validation logic itself disconnects nobody: the
handler's disconnects are the collection-complete listener's disconnect-all
of every connected peer — which fires exactly when the matching collect
fills the last missing slot — plus the no-work disconnects of the triggered
`_assignWork` run. -/
theorem download_complete_handler_effects (s : DM) (p : PeerId) (w : Work) (buf : List Nat)
    (hnd : (s.pending.jobs.map Job.peer).Nodup)
    (hmem : (⟨p, w⟩ : Job) ∈ s.pending.jobs) :
    ((completeHandler s p w buf).collectCalled = true ↔ s.sha1fn buf = s.pieceHashes w.index)
    ∧ ((completeHandler s p w buf).requeued = true ↔
        (s.sha1fn buf ≠ s.pieceHashes w.index ∧ w.index ∉ s.collected
          ∧ s.pending.numWorkers w = 1))
    ∧ (∀ j ∈ (completeHandler s p w buf).pendingAfterRemove, j.peer ≠ p)
    ∧ (completeHandler s p w buf).idlePushed = [p]
    ∧ ((completeHandler s p w buf).discAll =
        if s.sha1fn buf = s.pieceHashes w.index ∧ w.index ∉ s.collected
            ∧ (insert w.index s.collected).card = s.nPieces
        then s.totalConnected else [])
    ∧ (completeHandler s p w buf).disconnected =
        (completeHandler s p w buf).discAll ++ (completeHandler s p w buf).discLoop := by
  rcases jobs_decomp_of_mem hnd hmem with ⟨l1, l2, hsplit, hl1, hl2⟩
  have hjobs2 := removeWorker_jobs hsplit hl1
  have hpeers_ne : ∀ j ∈ l1 ++ l2, j.peer ≠ p := by
    intro j hj
    rcases List.mem_append.mp hj with hj | hj
    · exact hl1 j hj
    · exact hl2 j hj
  unfold completeHandler
  by_cases hhash : s.sha1fn buf ≠ s.pieceHashes w.index
  · rw [if_pos hhash]
    rcases hrq : decide (w.index ∉ s.collected) && decide (s.pending.numWorkers w = 1)
      with _ | _
    · simp only [hrq, Bool.false_eq_true, if_false]
      rw [Bool.and_eq_false_iff] at hrq
      refine ⟨Iff.intro False.elim (fun h => absurd h hhash), ?_, ?_, trivial, ?_, rfl⟩
      · simp only [Bool.false_eq_true, false_iff]
        intro hx
        rcases hrq with hq | hq
        · rw [decide_eq_false_iff_not, Classical.not_not] at hq
          exact hx.2.1 hq
        · rw [decide_eq_false_iff_not] at hq
          exact hq hx.2.2
      · intro j hj
        show j.peer ≠ p
        have hj2 : j ∈ l1 ++ l2 := by
          rw [← hjobs2]
          exact hj
        exact hpeers_ne j hj2
      · rw [if_neg (fun hx => hhash hx.1)]
    · simp only [hrq, if_true]
      rw [Bool.and_eq_true, decide_eq_true_eq, decide_eq_true_eq] at hrq
      refine ⟨⟨fun h => absurd h Bool.false_ne_true, fun h => absurd h hhash⟩,
        ⟨fun _ => ⟨hhash, hrq.1, hrq.2⟩, fun _ => trivial⟩, ?_, trivial, ?_, rfl⟩
      · intro j hj
        show j.peer ≠ p
        have hj2 : j ∈ l1 ++ l2 := by
          rw [← hjobs2]
          exact hj
        exact hpeers_ne j hj2
      · rw [if_neg (fun hx => hhash hx.1)]
  · rw [if_neg hhash]
    rw [Classical.not_not] at hhash
    refine ⟨⟨fun _ => hhash, fun _ => rfl⟩, ?_, ?_, rfl, ?_, rfl⟩
    · simp only [Bool.false_eq_true, false_iff]
      intro hx
      exact hx.1 hhash
    · intro j hj
      show j.peer ≠ p
      have hj2 : j ∈ l1 ++ l2 := by
        rw [← hjobs2]
        exact hj
      exact hpeers_ne j hj2
    · show (if (!decide (w.index ∈ s.collected)
          && decide ((insert w.index s.collected).card = s.nPieces)) = true
          then s.totalConnected else []) = _
      by_cases h1 : w.index ∈ s.collected
      · have hc1 : (!decide (w.index ∈ s.collected)
            && decide ((insert w.index s.collected).card = s.nPieces)) = false := by
          simp [h1]
        rw [hc1]
        simp only [Bool.false_eq_true, if_false]
        rw [if_neg (fun hx => hx.2.1 h1)]
      · by_cases h2 : (insert w.index s.collected).card = s.nPieces
        · have hc1 : (!decide (w.index ∈ s.collected)
              && decide ((insert w.index s.collected).card = s.nPieces)) = true := by
            simp [h1, h2]
          rw [hc1]
          simp only [if_true]
          rw [if_pos ⟨hhash, h1, h2⟩]
        · have hc1 : (!decide (w.index ∈ s.collected)
              && decide ((insert w.index s.collected).card = s.nPieces)) = false := by
            rw [decide_eq_false h2, Bool.and_false]
          rw [hc1]
          simp only [Bool.false_eq_true, if_false]
          rw [if_neg (fun hx => h2 hx.2.2)]

def c2wWork : Work := ⟨0, 4⟩

def c2wState : DM :=
  { nPieces := 2, unclaimed := [], pending := ⟨[⟨7, c2wWork⟩], 1⟩, unemployed := [],
    collected := ∅, totalConnected := [7], assigned := fun _ => none,
    bitfield := fun _ _ => false,
    connState := fun q => if q = 7 then .connected else .fresh,
    sha1fn := bHead, pieceHashes := fun _ => 5 }

/-- Claim C2 witness: the amended handler contract at a one-worker state with
a matching buffer. -/
theorem download_complete_handler_effects_witness :
    ((completeHandler c2wState 7 c2wWork [5]).collectCalled = true ↔
      c2wState.sha1fn [5] = c2wState.pieceHashes c2wWork.index)
    ∧ ((completeHandler c2wState 7 c2wWork [5]).requeued = true ↔
        (c2wState.sha1fn [5] ≠ c2wState.pieceHashes c2wWork.index
          ∧ c2wWork.index ∉ c2wState.collected
          ∧ c2wState.pending.numWorkers c2wWork = 1))
    ∧ (∀ j ∈ (completeHandler c2wState 7 c2wWork [5]).pendingAfterRemove, j.peer ≠ 7)
    ∧ (completeHandler c2wState 7 c2wWork [5]).idlePushed = [7]
    ∧ ((completeHandler c2wState 7 c2wWork [5]).discAll =
        if c2wState.sha1fn [5] = c2wState.pieceHashes c2wWork.index
            ∧ c2wWork.index ∉ c2wState.collected
            ∧ (insert c2wWork.index c2wState.collected).card = c2wState.nPieces
        then c2wState.totalConnected else [])
    ∧ (completeHandler c2wState 7 c2wWork [5]).disconnected =
        (completeHandler c2wState 7 c2wWork [5]).discAll
          ++ (completeHandler c2wState 7 c2wWork [5]).discLoop :=
  download_complete_handler_effects c2wState 7 c2wWork [5] (by decide) (by decide)

/-! Section 7.1 :  Counterexample traces -/

def exInitC1 : DM := DM.init [5, 6] 4 8 bHead

def exTraceC1 : List Ev :=
  [Ev.peerReady 0 (fun _ => true), Ev.peerReady 1 (fun i => decide (i = 0)),
   Ev.peerDone 0 [5]]

def checkC1 : Option DM → Bool
  | none => false
  | some s => decide (0 ∈ pIdx s) && decide (0 ∈ s.collected)

/-- Claim C1 counterexample: the "exactly one of" form fails on the code.  A
2-piece download: peer 0 (has both pieces) takes piece 0; peer 1 (has only
piece 0) gets a redundant assignment of piece 0; peer 0 then delivers piece 0
with a valid hash.  At the resulting handler boundary piece 0 is validated in
the collector and still held by peer 1's pending entry — two of the three
places at once. -/
theorem piece_conservation_exactly_one_fails :
    ∃ s, Reachable s ∧ 0 ∈ pIdx s ∧ 0 ∈ s.collected := by
  have hb : checkC1 (stepTrace exInitC1 exTraceC1) = true := by decide
  rcases hO : stepTrace exInitC1 exTraceC1 with _ | sF
  · rw [hO] at hb
    cases hb
  · rw [hO] at hb
    simp only [checkC1, Bool.and_eq_true, decide_eq_true_eq] at hb
    exact ⟨sF, reachable_stepTrace _ (Reachable.init [5, 6] 4 8 bHead) hO, hb.1, hb.2⟩

def exInitC9 : DM := DM.init [5] 4 4 bHead

def exTraceC9 : List Ev :=
  [Ev.peerReady 0 (fun _ => true), Ev.peerDone 0 [5], Ev.peerClose 0]

def checkC9 : Option DM → Bool
  | none => false
  | some s => decide (0 ∈ s.unemployed) && decide (s.connState 0 = .closed)

/-- Claim C9 counterexample: after its 'close' has been handled a peer can
still sit in the idle queue.  A 1-piece download: peer 0 delivers the only
piece (collection completes, `_assignWork` early-returns without draining
idle, the disconnect-all fires), then peer 0's 'close' is handled — and peer
0 remains in the unemployed queue while closed. -/
theorem closed_peer_remains_in_idle :
    ∃ s, Reachable s ∧ s.connState 0 = .closed ∧ 0 ∈ s.unemployed := by
  have hb : checkC9 (stepTrace exInitC9 exTraceC9) = true := by decide
  rcases hO : stepTrace exInitC9 exTraceC9 with _ | sF
  · rw [hO] at hb
    cases hb
  · rw [hO] at hb
    simp only [checkC9, Bool.and_eq_true, decide_eq_true_eq] at hb
    exact ⟨sF, reachable_stepTrace _ (Reachable.init [5] 4 4 bHead) hO, hb.2, hb.1⟩

def checkC2 : Option DM → Bool
  | none => false
  | some s =>
    match s.assigned 0 with
    | none => false
    | some w =>
      decide (s.connState 0 = .connected) &&
      decide (s.sha1fn [5] = s.pieceHashes w.index) &&
      decide (0 ∈ (completeHandler { s with assigned := Function.update s.assigned 0 none } 0 w [5]).disconnected) &&
      (completeHandler { s with assigned := Function.update s.assigned 0 none } 0 w [5]).collectCalled

/-- Claim C2 counterexample: "p is not disconnected" fails.  A 1-piece
download: peer 0 is assigned the only piece; a reachable 'download complete'
with a matching hash makes the collect complete the collection, whose
listener disconnects every connected peer — including the delivering peer 0
itself, during the very handler the claim is about. -/
theorem download_complete_disconnects_on_final_piece :
    ∃ s w, Reachable s ∧ s.connState 0 = .connected ∧ s.assigned 0 = some w ∧
      s.sha1fn [5] = s.pieceHashes w.index ∧
      0 ∈ (completeHandler { s with assigned := Function.update s.assigned 0 none } 0 w [5]).disconnected ∧
      (completeHandler { s with assigned := Function.update s.assigned 0 none } 0 w [5]).collectCalled = true := by
  have hb : checkC2 (stepTrace exInitC9 [Ev.peerReady 0 (fun _ => true)]) = true := by decide
  rcases hO : stepTrace exInitC9 [Ev.peerReady 0 (fun _ => true)] with _ | sF
  · rw [hO] at hb
    cases hb
  · rw [hO] at hb
    rcases hA : sF.assigned 0 with _ | w
    · simp only [checkC2, hA] at hb
      cases hb
    · simp only [checkC2, hA, Bool.and_eq_true, decide_eq_true_eq] at hb
      exact ⟨sF, w, reachable_stepTrace _ (Reachable.init [5] 4 4 bHead) hO,
        hb.1.1.1, hA, hb.1.1.2, hb.1.2, hb.2⟩

end NodeTorrent
